import Mathlib

/-!
# autoipgen: a verification development

Shallow embedding of `src/autoipgen.go` (package `main`) and of the parts of the Go
standard library it calls (`net.IP`, `net.ParseIP`, `net.ParseCIDR`, `strconv.Atoi`,
`strings.Split`).

Conventions.
* A Go `string` is a `List Char` (all strings of this program are ASCII).
* A Go `byte` is a `Fin 256`; a `net.IP` / `net.IPMask` is a list of bytes, the nil slice
  being the empty list.
* A Go `uint32` is a `Nat` kept below `2 ^ 32` by an explicit `% 2 ^ 32`.
* A run-time panic and an unbounded loop are visible in the result (`Outcome`).
-/

namespace AutoIPGen

/-! ## Basic types -/

/-- Go `string`. -/
abbrev Str := List Char

/-- Go `byte`. -/
abbrev Byte := Fin 256

/-- Go `net.IP` (a byte slice; nil is the empty list). -/
abbrev IP := List Byte

/-- Go `byte(n)`: conversion of an unsigned integer to a byte keeps the low 8 bits. -/
def byte (n : Nat) : Byte := ⟨n % 256, Nat.mod_lt n (by decide)⟩

/-- Wrap-around of `uint32` arithmetic. -/
def u32 (n : Nat) : Nat := n % 2 ^ 32

/-- Source constant `maxOctet`. -/
def maxOctet : Nat := 255

/-- Source constant `dirName`. -/
def dirName : Str := "result".toList

/-- Source constant `batchSize`. -/
def batchSize : Nat := 10000000

/-! ## `net.IP` helpers of the Go standard library -/

/-- Go `net.v4InV6Prefix`: the twelve leading bytes of an IPv4-mapped IPv6 address. -/
def v4InV6Prefix : IP := [0, 0, 0, 0, 0, 0, 0, 0, 0, 0, 255, 255]

/-- Go `net.IPv4(a, b, c, d)`: the 16-byte IPv4-mapped form. -/
def IPv4 (a b c d : Byte) : IP := v4InV6Prefix ++ [a, b, c, d]

/-- Go `net.isZeros`. -/
def isZeros (p : IP) : Bool := p.all (fun x => x == 0)

/-- Go `IP.To4`: the 4-byte form of an IPv4 address, nil (empty) when `ip` is not one. -/
def To4 (ip : IP) : IP :=
  if ip.length = 4 then ip
  else if ip.length = 16 ∧ isZeros (ip.take 10) = true ∧ ip[10]? = some 255 ∧ ip[11]? = some 255 then
    ip.drop 12
  else []

/-- Go `ubtoa`: decimal digits of a byte, without leading zeros. -/
def ubtoa (v : Nat) : Str :=
  if v < 10 then [Char.ofNat (v + 48)]
  else if v < 100 then [Char.ofNat (v / 10 + 48), Char.ofNat (v % 10 + 48)]
  else [Char.ofNat (v / 100 + 48), Char.ofNat (v / 10 % 10 + 48), Char.ofNat (v % 10 + 48)]

/-- Dotted-quad text of four octets. -/
def dottedQuad (a b c d : Nat) : Str :=
  ubtoa a ++ '.' :: (ubtoa b ++ '.' :: (ubtoa c ++ '.' :: ubtoa d))

/-- Go `IP.String` on the IPv4 branch (`To4` has four bytes): dotted-quad notation.  A nil
address prints as `<nil>`.  The remaining branches (IPv6 text, hex dump of a slice of odd
length) are never reached with a value built by `uint32ToIP` and print as `?` here. -/
def ipString (ip : IP) : Str :=
  if ip.length = 0 then "<nil>".toList
  else
    match To4 ip with
    | [a, b, c, d] => dottedQuad a.val b.val c.val d.val
    | _ => "?".toList

/-! ## AddressCodec: `ipToUint32`, `uint32ToIP`, `getBroadcastAddress` -/

/-- Source `ipToUint32` (lines 228-231).  Indexing a slice out of bounds panics: `none`. -/
def ipToUint32 (ip : IP) : Option Nat := do
  let ip := To4 ip
  let a ← ip[0]?
  let b ← ip[1]?
  let c ← ip[2]?
  let d ← ip[3]?
  pure (u32 (a.val <<< 24) ||| u32 (b.val <<< 16) ||| u32 (c.val <<< 8) ||| d.val)

/-- Source `uint32ToIP` (lines 234-236). -/
def uint32ToIP (n : Nat) : IP :=
  IPv4 (byte (n >>> 24)) (byte (n >>> 16)) (byte (n >>> 8)) (byte n)

/-- Go `net.IPNet`: the network address and its mask. -/
structure IPNet where
  IP : List Byte
  Mask : List Byte
deriving DecidableEq, Repr

/-- One pass of the loop of `getBroadcastAddress` over the indices of `ip`:
`broadcast[i] = ip[i] | ^mask[i]`.  Reading `mask[i]` out of bounds panics: `none`. -/
def broadcastLoop : IP → IP → Option IP
  | [], _ => some []
  | _ :: _, [] => none
  | x :: ip, m :: mask => (broadcastLoop ip mask).map (fun rest => byte (x.val ||| (255 - m.val)) :: rest)

/-- Source `getBroadcastAddress` (lines 239-247). -/
def getBroadcastAddress (ipNet : IPNet) : Option IP :=
  broadcastLoop ipNet.IP ipNet.Mask

/-! ## Results of running a producer -/

/-- How a run of a function ended. -/
inductive Outcome where
  /-- The function returned normally. -/
  | returned
  /-- The function was still inside its loop when the step budget ran out. -/
  | running
  /-- A run-time panic (index out of range) aborted the function. -/
  | panicked
deriving DecidableEq, Repr

/-- What a producer did: the batches it sent on the channel, in order, and how it ended. -/
structure Run where
  sent : List (List Str)
  outcome : Outcome
deriving DecidableEq, Repr

/-! ## AddressProducer: range and prefix strategies -/

/-- The `for current := startInt; current <= endInt; current++` loop of
`generateIPsInRange` (lines 213-216), run for at most `fuel` evaluations of its condition.
`sent` are the batches already sent.  The increment is a `uint32` increment. -/
def generateIPsInRangeLoop : Nat → Nat → Nat → List (List Str) → Run
  | 0, _, _, sent => ⟨sent, .running⟩
  | fuel + 1, current, endInt, sent =>
    if current ≤ endInt then
      generateIPsInRangeLoop fuel (u32 (current + 1)) endInt
        (sent ++ [[ipString (uint32ToIP current) ++ ['\n']]])
    else ⟨sent, .returned⟩

/-- Source `generateIPsInRange` (lines 209-217), with a budget of `fuel` loop tests. -/
def generateIPsInRange (fuel : Nat) (start end_ : IP) : Run :=
  match ipToUint32 start with
  | none => ⟨[], .panicked⟩
  | some startInt =>
    match ipToUint32 end_ with
    | none => ⟨[], .panicked⟩
    | some endInt => generateIPsInRangeLoop fuel startInt endInt []

/-- Source `generateIPsFromPrefix` (lines 220-225). -/
def generateIPsFromPrefix (fuel : Nat) (ipNet : IPNet) : Run :=
  match getBroadcastAddress ipNet with
  | none => ⟨[], .panicked⟩
  | some end_ => generateIPsInRange fuel ipNet.IP end_

/-! ## Text parsing of the Go standard library: `net.ParseIP`, `net.ParseCIDR` -/

/-- An ASCII decimal digit. -/
def isDigit (c : Char) : Bool := decide ('0' ≤ c ∧ c ≤ '9')

/-- Go `netip.parseIPv4Fields`: the octets of a dotted-decimal string.  `prev` is the
character before the current one (`none` at index 0), `val` and `digLen` the value and the
digit count of the octet being read, `fields` the octets already stored (`pos` is their
number).  Any error is `none`. -/
def parseIPv4Fields : Str → Option Char → Nat → Nat → List Byte → Option (List Byte)
  | [], _, val, _, fields => if fields.length < 3 then none else some (fields ++ [byte val])
  | c :: cs, prev, val, digLen, fields =>
    if isDigit c then
      if digLen = 1 ∧ val = 0 then none
      else if val * 10 + (c.toNat - 48) > 255 then none
      else parseIPv4Fields cs (some c) (val * 10 + (c.toNat - 48)) (digLen + 1) fields
    else if c = '.' then
      if prev = none ∨ cs = [] ∨ prev = some '.' then none
      else if fields.length = 3 then none
      else parseIPv4Fields cs (some c) 0 0 (fields ++ [byte val])
    else none

/-- Go `netip.parseIPv4`. -/
def parseIPv4 (s : Str) : Option (List Byte) := parseIPv4Fields s none 0 0 []

/-- Value of a hexadecimal digit. -/
def hexVal (c : Char) : Option Nat :=
  if '0' ≤ c ∧ c ≤ '9' then some (c.toNat - 48)
  else if 'a' ≤ c ∧ c ≤ 'f' then some (c.toNat - 97 + 10)
  else if 'A' ≤ c ∧ c ≤ 'F' then some (c.toNat - 65 + 10)
  else none

/-- The inner loop of Go `netip.parseIPv6` reading one group of hexadecimal digits:
the value `acc`, the number `off` of digits read and the rest of the string; `none` when
the group has more than four digits or overflows 16 bits. -/
def parseHexGroup : Str → Nat → Nat → Option (Nat × Nat × Str)
  | [], off, acc => some (acc, off, [])
  | c :: cs, off, acc =>
    match hexVal c with
    | none => some (acc, off, c :: cs)
    | some v =>
      if off > 3 then none
      else if u32 (u32 (acc <<< 4) + v) > 65535 then none
      else parseHexGroup cs (off + 1) (u32 (u32 (acc <<< 4) + v))

/-- The main loop `for i < 16` of Go `netip.parseIPv6`.  `ip` holds the `i = ip.length`
bytes written so far, `ellipsis` the position of `::` if one was seen.  The result is the
state after the loop, with the unread rest of the string; any error is `none`.  Each round
writes at least two bytes, so eight rounds suffice; `fuel` bounds the recursion. -/
def parseIPv6Loop : Nat → Str → Option Nat → List Byte → Option (List Byte × Option Nat × Str)
  | 0, s, ellipsis, ip => some (ip, ellipsis, s)
  | fuel + 1, s, ellipsis, ip =>
    if ip.length < 16 then
      match parseHexGroup s 0 0 with
      | none => none
      | some (acc, off, rest) =>
        if off = 0 then none
        else if rest.head? = some '.' then
          -- trailing dotted-decimal IPv4
          if ellipsis = none ∧ ip.length ≠ 12 then none
          else if ip.length + 4 > 16 then none
          else
            match parseIPv4 s with
            | none => none
            | some fields => some (ip ++ fields, ellipsis, [])
        else
          let ip2 := ip ++ [byte (acc >>> 8), byte acc]
          match rest with
          | [] => some (ip2, ellipsis, [])
          | c :: rest2 =>
            if c ≠ ':' then none
            else
              match rest2 with
              | [] => none
              | d :: rest3 =>
                if d = ':' then
                  if ellipsis ≠ none then none
                  else if rest3 = [] then some (ip2, some ip2.length, [])
                  else parseIPv6Loop fuel rest3 (some ip2.length) ip2
                else parseIPv6Loop fuel (d :: rest3) ellipsis ip2
    else some (ip, ellipsis, s)

/-- Go `netip.parseIPv6` for a string without a zone: the 16 bytes of the address. -/
def parseIPv6 (s : Str) : Option (List Byte) :=
  -- a leading `::` sets the ellipsis at position 0
  let ellipsis : Option Nat := match s with
    | ':' :: ':' :: _ => some 0
    | _ => none
  let s1 : Str := match s with
    | ':' :: ':' :: rest => rest
    | _ => s
  if ellipsis = some 0 ∧ s1 = [] then some (List.replicate 16 0)
  else
    match parseIPv6Loop 9 s1 ellipsis [] with
    | none => none
    | some (ip, ell, rest) =>
      if rest ≠ [] then none
      else if ip.length < 16 then
        match ell with
        | none => none
        | some e => some (ip.take e ++ List.replicate (16 - ip.length) 0 ++ ip.drop e)
      else if ell ≠ none then none
      else some ip

/-- Go `netip.Addr` without a zone: an IPv4 address (4 bytes) or an IPv6 one (16 bytes). -/
inductive Addr where
  | v4 (b : List Byte)
  | v6 (b : List Byte)
deriving DecidableEq, Repr

/-- Go `Addr.BitLen`. -/
def Addr.BitLen : Addr → Nat
  | .v4 _ => 32
  | .v6 _ => 128

/-- Go `Addr.As16`: the 16-byte form, IPv4 addresses in IPv4-mapped form. -/
def Addr.As16 : Addr → IP
  | .v4 b => v4InV6Prefix ++ b
  | .v6 b => b

/-- Go `netip.ParseAddr`, restricted to results without a zone (the callers in package
`net` reject an address with a zone): the first of `.`, `:` and `%` in `s` selects the
parser; a string holding `%` either fails to parse or carries a zone, so it gives `none`. -/
def ParseAddr (s : Str) : Option Addr :=
  if s.contains '%' then none
  else
    match s.find? (fun c => c = '.' ∨ c = ':') with
    | some '.' => (parseIPv4 s).map Addr.v4
    | some ':' => (parseIPv6 s).map Addr.v6
    | _ => none

/-- Go `net.ParseIP`: the 16-byte form of the address written in `s`, nil (the empty
list) when `s` is not the text of an IP address. -/
def ParseIP (s : Str) : IP :=
  match ParseAddr s with
  | none => []
  | some a => a.As16

/-- Go `net.dtoi`: decimal to integer; the value, the number of characters consumed and
whether it succeeded (`big = 0xFFFFFF` bounds the value). -/
def dtoi : Str → Nat → Nat → Nat × Nat × Bool
  | [], n, i => if i = 0 then (0, 0, false) else (n, i, true)
  | c :: cs, n, i =>
    if isDigit c then
      if n * 10 + (c.toNat - 48) ≥ 0xFFFFFF then (0xFFFFFF, i, false)
      else dtoi cs (n * 10 + (c.toNat - 48)) (i + 1)
    else if i = 0 then (0, 0, false) else (n, i, true)

/-- The loop of Go `net.CIDRMask` over the `l` bytes of the mask, `n` one-bits left. -/
def cidrMaskLoop : Nat → Nat → List Byte
  | 0, _ => []
  | l + 1, n =>
    if n ≥ 8 then 255 :: cidrMaskLoop l (n - 8)
    else byte (255 - (255 >>> n)) :: cidrMaskLoop l 0

/-- Go `net.CIDRMask(ones, bits)`. -/
def CIDRMask (ones bits : Nat) : List Byte :=
  if bits ≠ 32 ∧ bits ≠ 128 then []
  else if ones > bits then []
  else cidrMaskLoop (bits / 8) ones

/-- Bytewise `ip[i] & mask[i]` of two slices of the same length (loop of Go `IP.Mask`). -/
def andBytes : List Byte → List Byte → List Byte
  | x :: ip, m :: mask => byte (x.val &&& m.val) :: andBytes ip mask
  | _, _ => []

/-- Go `IP.Mask`. -/
def IPMask (ip mask : List Byte) : IP :=
  let mask := if mask.length = 16 ∧ ip.length = 4 ∧ (mask.take 12).all (fun x => x == 255) then
    mask.drop 12 else mask
  let ip := if mask.length = 4 ∧ ip.length = 16 ∧ ip.take 12 = v4InV6Prefix then ip.drop 12 else ip
  if ip.length ≠ mask.length then [] else andBytes ip mask

/-- Go `net.ParseCIDR`, the `*IPNet` result; `none` is the error result. -/
def ParseCIDR (s : Str) : Option IPNet :=
  if ¬ s.contains '/' then none
  else
    let addr := s.takeWhile (fun c => c ≠ '/')
    let mask := (s.dropWhile (fun c => c ≠ '/')).drop 1
    match ParseAddr addr with
    | none => none
    | some ipAddr =>
      match dtoi mask 0 0 with
      | (n, i, ok) =>
        if ¬ ok ∨ i ≠ mask.length ∨ n > ipAddr.BitLen then none
        else
          let m := CIDRMask n ipAddr.BitLen
          some ⟨IPMask ipAddr.As16 m, m⟩

/-! ## BogonTable -/

/-- Source variable `bogonRanges` (lines 22-37). -/
def bogonRanges : List Str :=
  ["0.0.0.0/8".toList, "10.0.0.0/8".toList, "100.64.0.0/10".toList, "127.0.0.0/8".toList,
   "169.254.0.0/16".toList, "172.16.0.0/12".toList, "192.0.0.0/24".toList,
   "192.0.2.0/24".toList, "192.168.0.0/16".toList, "198.18.0.0/15".toList,
   "198.51.100.0/24".toList, "203.0.113.0/24".toList, "224.0.0.0/4".toList,
   "240.0.0.0/4".toList]

/-- An element of the source variable `bogonIntRanges` (lines 40-42). -/
structure IntRange where
  start : Nat
  end_ : Nat
deriving DecidableEq, Repr

/-- The startup loop of `main` (lines 50-60) over the list `cidrs`, appending to the table
`acc`.  An entry that does not parse is skipped; a panic in `ipToUint32` or
`getBroadcastAddress` is `none`. -/
def buildBogonIntRanges : List Str → List IntRange → Option (List IntRange)
  | [], acc => some acc
  | cidr :: rest, acc =>
    match ParseCIDR cidr with
    | none => buildBogonIntRanges rest acc
    | some ipNet =>
      match ipToUint32 ipNet.IP with
      | none => none
      | some startIP =>
        match getBroadcastAddress ipNet with
        | none => none
        | some b =>
          match ipToUint32 b with
          | none => none
          | some broadcastIP => buildBogonIntRanges rest (acc ++ [⟨startIP, broadcastIP⟩])

/-- The value of the source variable `bogonIntRanges` after the startup loop of `main` has run
on `bogonRanges` (empty if the loop panicked). -/
def bogonIntRanges : List IntRange :=
  (buildBogonIntRanges bogonRanges []).getD []

/-- Source `isBogon` (lines 278-286), the global table passed explicitly.  A panic inside
`ipToUint32` is `none`. -/
def isBogon (table : List IntRange) (ip : Str) : Option Bool :=
  match ipToUint32 (ParseIP ip) with
  | none => none
  | some ipInt => some (table.any (fun r => decide (ipInt ≥ r.start ∧ ipInt ≤ r.end_)))

/-! ## AddressProducer: full-space strategy -/

/-- Go `%d` of `fmt.Sprintf` for an `int`. -/
def fmtInt : Int → Str
  | .ofNat n => Nat.toDigits 10 n
  | .negSucc n => '-' :: Nat.toDigits 10 (n + 1)

/-- The string built on line 256: `fmt.Sprintf("%d.%d.%d.%d\\n", ...)`. -/
def sprintfIP (firstOctet secondOctet thirdOctet fourthOctet : Int) : Str :=
  fmtInt firstOctet ++ '.' :: (fmtInt secondOctet ++ '.' :: (fmtInt thirdOctet ++ '.' ::
    (fmtInt fourthOctet ++ ['\n'])))

/-- The local state of `generateIPs`: the batch being filled and the batches already sent. -/
structure GenState where
  batch : List Str
  sent : List (List Str)
deriving DecidableEq, Repr

/-- The body of the innermost loop of `generateIPs` (lines 256-267).  A panic gives
`Except.error` with the batches sent before it. -/
def generateIPsBody (table : List IntRange) (batchSize : Nat) (firstOctet : Int) (skipBogon : Bool)
    (secondOctet thirdOctet fourthOctet : Nat) (st : GenState) : Except (List (List Str)) GenState :=
  let ip := sprintfIP firstOctet secondOctet thirdOctet fourthOctet
  match (if skipBogon then isBogon table ip else some false) with
  | none => .error st.sent
  | some true => .ok st
  | some false =>
    if (st.batch ++ [ip]).length ≥ batchSize then .ok ⟨[], st.sent ++ [st.batch ++ [ip]]⟩
    else .ok ⟨st.batch ++ [ip], st.sent⟩

/-- A Go loop `for x := 0; x <= maxOctet; x++ { body }` over a state. -/
def forOctets {σ ε : Type} (maxOctet : Nat) (body : Nat → σ → Except ε σ) (st : σ) : Except ε σ :=
  (List.range (maxOctet + 1)).foldlM (fun s x => body x s) st

/-- The three nested loops of `generateIPs` (lines 253-270) for loop bound `maxOctet` and batch
capacity `batchSize`. -/
def generateIPsLoops (table : List IntRange) (maxOctet batchSize : Nat) (firstOctet : Int)
    (skipBogon : Bool) (st : GenState) : Except (List (List Str)) GenState :=
  forOctets maxOctet (fun secondOctet =>
    forOctets maxOctet (fun thirdOctet =>
      forOctets maxOctet (fun fourthOctet =>
        generateIPsBody table batchSize firstOctet skipBogon secondOctet thirdOctet fourthOctet))) st

/-- Source `generateIPs` (lines 250-275) with the two constants as parameters. -/
def generateIPsWith (table : List IntRange) (maxOctet batchSize : Nat) (firstOctet : Int)
    (skipBogon : Bool) : Run :=
  match generateIPsLoops table maxOctet batchSize firstOctet skipBogon ⟨[], []⟩ with
  | .error sent => ⟨sent, .panicked⟩
  | .ok st => if st.batch.length > 0 then ⟨st.sent ++ [st.batch], .returned⟩ else ⟨st.sent, .returned⟩

/-- Source `generateIPs` (lines 250-275): `maxOctet = 255`, `batchSize = 10000000`, and the
global table `bogonIntRanges` as `table`. -/
def generateIPs (table : List IntRange) (firstOctet : Int) (skipBogon : Bool) : Run :=
  generateIPsWith table maxOctet batchSize firstOctet skipBogon

/-! ## FileWriter -/

/-- Go `strings.Split(s, ".")`. -/
def splitDot : Str → List Str
  | [] => [[]]
  | c :: cs =>
    if c = '.' then [] :: splitDot cs
    else
      match splitDot cs with
      | [] => [[c]]
      | h :: t => (c :: h) :: t

/-- Go `strconv.Atoi`, the value returned (the caller drops the error): an optional sign and
decimal digits; `0` on a syntax error, the nearest 64-bit `int` on overflow. -/
def Atoi (s : Str) : Int :=
  let neg : Bool := match s with
    | '-' :: _ => true
    | _ => false
  let digits : Str := match s with
    | '-' :: r => r
    | '+' :: r => r
    | r => r
  if digits = [] ∨ digits.all isDigit = false then 0
  else
    let n : Nat := digits.foldl (fun n c => n * 10 + (c.toNat - 48)) 0
    if neg then max (-(n : Int)) (-(2 ^ 63 : Int)) else min (n : Int) (2 ^ 63 - 1 : Int)

/-- The files of the output directory: the content of each existing path. -/
abbrev FS := Str → Option Str

/-- Appending `data` to the file `path`, created if missing
(`os.O_CREATE|os.O_WRONLY|os.O_APPEND`). -/
def FS.append (fs : FS) (path data : Str) : FS :=
  fun p => if p = path then some ((fs p).getD [] ++ data) else fs p

/-- What the operating system does with one batch: everything is written; opening the file
fails with an error whose text is `err`; or the file opens and writing fails after `n` bytes
of the batch reached it. -/
inductive FileIO where
  | ok
  | openFails (err : Str)
  | writeFails (n : Nat)
deriving DecidableEq, Repr

/-- The path `writeToFile` computes for a batch whose first entry is `first` (lines 295-298). -/
def batchPath (first : Str) : Str :=
  let firstIP := splitDot first
  let firstOctet := Atoi (firstIP.headD [])
  let fileName := fmtInt firstOctet ++ ".txt".toList
  dirName ++ '/' :: fileName

/-- The line printed on line 302: `fmt.Printf("Gagal membuka file %s: %v\n", filePath, err)`. -/
def openFailureLine (filePath err : Str) : Str :=
  "Gagal membuka file ".toList ++ filePath ++ ": ".toList ++ err ++ ['\n']

/-- The body of the loop of `writeToFile` (lines 291-311) for one received batch: the new
files and the lines printed on the console.  The errors of `writer.WriteString` and
`writer.Flush` are discarded by the source: a failed write prints nothing and leaves in the
file what was written before the failure. -/
def writeBatch (fs : FS) (batch : List Str) (io : FileIO) : FS × List Str :=
  match batch with
  | [] => (fs, [])
  | first :: _ =>
    match io with
    | .openFails err => (fs, [openFailureLine (batchPath first) err])
    | .ok => (fs.append (batchPath first) batch.flatten, [])
    | .writeFails n => (fs.append (batchPath first) (batch.flatten.take n), [])

/-- Source `writeToFile` (lines 289-313) on the sequence of batches it receives until the
channel is closed and drained; `io i` is what happens to the files for the `i`-th batch. -/
def writeToFileFrom (io : Nat → FileIO) : Nat → List (List Str) → FS × List Str → FS × List Str
  | _, [], st => st
  | i, batch :: rest, (fs, log) =>
    let r := writeBatch fs batch (io i)
    writeToFileFrom io (i + 1) rest (r.1, log ++ r.2)

/-- Source `writeToFile` (lines 289-313). -/
def writeToFile (io : Nat → FileIO) (fs : FS) (batches : List (List Str)) : FS × List Str :=
  writeToFileFrom io 0 batches (fs, [])

/-- The lines of the text `s` read after the unterminated line start `cur`: a newline ends a
line, and what follows the last newline is a line if it is not empty. -/
def linesFrom : Str → Str → List Str
  | [], cur => if cur = [] then [] else [cur]
  | c :: cs, cur => if c = '\n' then cur :: linesFrom cs [] else linesFrom cs (cur ++ [c])

/-- The lines of a file. -/
def linesOf (s : Str) : List Str := linesFrom s []

/-! ## Orchestrator: `main` and the three handlers -/

/-- What the orchestrator does, in order. -/
inductive Action where
  /-- Console output. -/
  | print (msg : Str)
  /-- The call `os.MkdirAll(dir, 0755)`, which creates `dir` when it is absent. -/
  | mkdirAll (dir : Str)
  /-- The call `generateRangeIPs(start, end)`. -/
  | generateRangeIPs (start end_ : IP)
  /-- The call `generatePrefixIPs(ipNet)`. -/
  | generatePrefixIPs (ipNet : IPNet)
  /-- The call `generateAllIPs(skipBogon)`. -/
  | generateAllIPs (skipBogon : Bool)
deriving DecidableEq, Repr

/-- The values `fmt.Scan` reads from the console, and whether `os.MkdirAll` succeeds. -/
structure Console where
  option : Int
  startIP : Str
  endIP : Str
  ipPrefix : Str
  choice : Int
  mkdirOk : Bool

/-- Source `handleRangeOption` (lines 89-106). -/
def handleRangeOption (startIP endIP : Str) : List Action :=
  let start := ParseIP startIP
  let end_ := ParseIP endIP
  [.print "Masukkan IP awal: ".toList, .print "Masukkan IP akhir: ".toList] ++
  if start = [] ∨ end_ = [] then [.print "IP tidak valid.\n".toList]
  else
    [.print ("Mulai menghasilkan IP dari ".toList ++ startIP ++ " ke ".toList ++ endIP ++ ['\n']),
     .generateRangeIPs start end_]

/-- Source `handlePrefixOption` (lines 109-122). -/
def handlePrefixOption (ipPrefix : Str) : List Action :=
  [.print "Masukkan IP dan prefix (misal 192.168.0.0/16): ".toList] ++
  match ParseCIDR ipPrefix with
  | none => [.print "Prefix tidak valid.\n".toList]
  | some ipNet =>
    [.print ("Mulai menghasilkan IP untuk prefix ".toList ++ ipPrefix ++ ['\n']),
     .generatePrefixIPs ipNet]

/-- Source `handleAllIPOption` (lines 125-141). -/
def handleAllIPOption (choice : Int) : List Action :=
  [.print "Generate semua IP atau tanpa Bogon?\n".toList, .print "1. Semua IP\n".toList,
   .print "2. Tanpa Bogon\n".toList] ++
  if choice = 1 then [.print "Mulai menghasilkan semua IP...\n".toList, .generateAllIPs false]
  else if choice = 2 then
    [.print "Mulai menghasilkan semua IP tanpa Bogon...\n".toList, .generateAllIPs true]
  else [.print "Pilihan tidak valid.\n".toList]

/-- Source `main` (lines 45-86) after the startup loop: the menu, the creation of the output
directory, the dispatch. -/
def main (c : Console) : List Action :=
  [.print "Pilih opsi:\n".toList, .print "1. Generate IP berdasarkan range\n".toList,
   .print "2. Generate IP berdasarkan prefix\n".toList, .print "3. Generate semua IP\n".toList,
   .mkdirAll dirName] ++
  if c.mkdirOk = false then [.print "Gagal membuat folder result:\n".toList]
  else if c.option = 1 then handleRangeOption c.startIP c.endIP
  else if c.option = 2 then handlePrefixOption c.ipPrefix
  else if c.option = 3 then handleAllIPOption c.choice
  else [.print "Pilihan tidak valid.\n".toList]

/-! ## The pipeline: goroutines, the channel and the `WaitGroup` -/

/-- A producer goroutine of `generateRangeIPs`, `generatePrefixIPs` or `generateAllIPs`. -/
inductive Producer where
  /-- Not yet started by a `go` statement; `batches` is what it will send. -/
  | notStarted (batches : List (List Str))
  /-- Running, with `pending` still to send. -/
  | running (pending : List (List Str))
  /-- Returned, its deferred `wg.Done()` executed. -/
  | done
deriving DecidableEq, Repr

/-- Where the orchestrating function (`generateRangeIPs`, ...) is. -/
inductive MainPc where
  /-- Executing the `wg.Add(1); go func() {...}()` statements of the producers. -/
  | spawning
  /-- Blocked in, or about to enter, `wg.Wait()`. -/
  | waiting
  /-- `wg.Wait()` has returned; `close(ipChannel)` is next. -/
  | closing
  /-- The function has returned. -/
  | returned
deriving DecidableEq, Repr

/-- The state of one of the three orchestrating functions and its goroutines. -/
structure Pipeline where
  /-- The counter of the `sync.WaitGroup`. -/
  wg : Nat
  /-- The batches buffered in `ipChannel`. -/
  chan : List (List Str)
  /-- Whether `ipChannel` is closed. -/
  closed : Bool
  producers : List Producer
  /-- Whether the writer goroutine has left `writeToFile` and run its `wg.Done()`. -/
  writerExited : Bool
  /-- The batches the writer has received so far. -/
  received : List (List Str)
  mainPc : MainPc

/-- The state right after the writer goroutine has been started (`wg.Add(1); go ...`,
lines 148-152, 169-173, 190-194): `work` lists, for each producer to start, the batches it
will send. -/
def Pipeline.init (work : List (List (List Str))) : Pipeline :=
  ⟨1, [], false, work.map Producer.notStarted, false, [], .spawning⟩

/-- One atomic step of the system; `cap` is the capacity `runtime.NumCPU()*2` of the channel. -/
inductive Step (cap : Nat) : Pipeline → Pipeline → Prop where
  /-- `wg.Add(1); go func() { defer wg.Done(); generate...(...) }()`: the next producer starts. -/
  | spawn (s : Pipeline) (l r : List Producer) (bs : List (List Str)) :
      s.mainPc = .spawning → s.producers = l ++ Producer.notStarted bs :: r →
      (∀ p ∈ l, ∀ b, p ≠ Producer.notStarted b) →
      Step cap s { s with wg := s.wg + 1, producers := l ++ Producer.running bs :: r }
  /-- Every producer is started: the function reaches `wg.Wait()`. -/
  | startWait (s : Pipeline) :
      s.mainPc = .spawning → (∀ p ∈ s.producers, ∀ b, p ≠ Producer.notStarted b) →
      Step cap s { s with mainPc := .waiting }
  /-- A producer sends its next batch: `ipChannel <- batch` with room in the buffer. -/
  | send (s : Pipeline) (l r : List Producer) (b : List Str) (bs : List (List Str)) :
      s.producers = l ++ Producer.running (b :: bs) :: r → s.chan.length < cap → s.closed = false →
      Step cap s { s with chan := s.chan ++ [b], producers := l ++ Producer.running bs :: r }
  /-- A producer returns and its deferred `wg.Done()` runs. -/
  | finish (s : Pipeline) (l r : List Producer) :
      s.producers = l ++ Producer.running [] :: r →
      Step cap s { s with wg := s.wg - 1, producers := l ++ Producer.done :: r }
  /-- The writer receives a batch: one round of `for batch := range ipChannel`. -/
  | recv (s : Pipeline) (b : List Str) (bs : List (List Str)) :
      s.writerExited = false → s.chan = b :: bs →
      Step cap s { s with chan := bs, received := s.received ++ [b] }
  /-- The channel is closed and drained: the writer leaves its loop, `wg.Done()` runs. -/
  | writerExit (s : Pipeline) :
      s.writerExited = false → s.chan = [] → s.closed = true →
      Step cap s { s with writerExited := true, wg := s.wg - 1 }
  /-- The counter is zero: `wg.Wait()` returns. -/
  | waitReturn (s : Pipeline) :
      s.mainPc = .waiting → s.wg = 0 →
      Step cap s { s with mainPc := .closing }
  /-- The call `close(ipChannel)`, after which the function returns. -/
  | close (s : Pipeline) :
      s.mainPc = .closing →
      Step cap s { s with closed := true, mainPc := .returned }

/-- The states the system can reach from `s`. -/
inductive Reachable (cap : Nat) (s : Pipeline) : Pipeline → Prop where
  | refl : Reachable cap s s
  | step (t u : Pipeline) : Reachable cap s t → Step cap t u → Reachable cap s u

/-! ## Auxiliary definitions used in the proofs -/

/-- What `parseIPv4Fields` does to `val` and `digLen` while it reads the digits `ds`. -/
def readDigits : Str → Nat → Nat → Option (Nat × Nat)
  | [], val, digLen => some (val, digLen)
  | c :: cs, val, digLen =>
    if digLen = 1 ∧ val = 0 then none
    else if val * 10 + (c.toNat - 48) > 255 then none
    else readDigits cs (val * 10 + (c.toNat - 48)) (digLen + 1)

/-- Every string `generateIPs` has put in a batch so far, in order. -/
def emitted (st : GenState) : List Str := st.sent.flatten ++ st.batch

/-- The text of the `i`-th address of the shard of first octet `k`: the dotted quad of the
integer `k * 2 ^ 24 + i` and a newline. -/
def shardEntry (k i : Nat) : Str := ipString (uint32ToIP (k * 2 ^ 24 + i)) ++ ['\n']

/-- Whether a producer goroutine has been started and has not yet returned. -/
def Producer.isRunning : Producer → Bool
  | .running _ => true
  | _ => false

/-- The invariant of the pipeline: the channel is open, the writer is in its loop, the
orchestrating function has not passed `wg.Wait()`, and the counter of the `WaitGroup` is one
(the writer) plus the number of running producers. -/
def PipelineInv (s : Pipeline) : Prop :=
  s.closed = false ∧ s.writerExited = false ∧ (s.mainPc = .spawning ∨ s.mainPc = .waiting) ∧
    s.wg = 1 + s.producers.countP Producer.isRunning

/-- An input of `main` that the orchestrator rejects: a menu selection other than 1, 2, 3, a
sub-choice other than 1, 2 in mode 3, an address that `net.ParseIP` rejects in mode 1, a
prefix that `net.ParseCIDR` rejects in mode 2. -/
def Console.invalid (c : Console) : Prop :=
  (c.option ≠ 1 ∧ c.option ≠ 2 ∧ c.option ≠ 3) ∨
  (c.option = 3 ∧ c.choice ≠ 1 ∧ c.choice ≠ 2) ∨
  (c.option = 1 ∧ (ParseIP c.startIP = [] ∨ ParseIP c.endIP = [])) ∨
  (c.option = 2 ∧ ParseCIDR c.ipPrefix = none)

/-- Console output. -/
def Action.isPrint : Action → Bool
  | .print _ => true
  | _ => false

/-- A call into the pipeline (`generateRangeIPs`, `generatePrefixIPs`, `generateAllIPs`),
which starts the writer and the producers. -/
def Action.isPipeline : Action → Bool
  | .generateRangeIPs _ _ => true
  | .generatePrefixIPs _ => true
  | .generateAllIPs _ => true
  | _ => false

/-- The path of the output file of first octet `k`: `result/k.txt`. -/
def outPath (k : Int) : Str := dirName ++ '/' :: (fmtInt k ++ ".txt".toList)

/-- A batch all of whose entries are the text `k.b.c.d` and a newline, with first octet `k`. -/
def ProducerBatch (k : Byte) (batch : List Str) : Prop :=
  ∀ e ∈ batch, ∃ b c d : Byte, e = dottedQuad k.val b.val c.val d.val ++ ['\n']

/-- A batch sent by one of the three producers, on some input. -/
def SentByProducer (table : List IntRange) (batch : List Str) : Prop :=
  (∃ fuel start end_, batch ∈ (generateIPsInRange fuel start end_).sent) ∨
  (∃ fuel ipNet, batch ∈ (generateIPsFromPrefix fuel ipNet).sent) ∨
  (∃ (k : Byte) (skipBogon : Bool), batch ∈ (generateIPs table k.val skipBogon).sent)

/-- Every line of every file `k.txt` of the output directory begins with `k.`. -/
def FilesRouted (fs : FS) : Prop :=
  ∀ (k : Nat) (content : Str), fs (outPath k) = some content →
    ∀ l ∈ linesOf content, (fmtInt k ++ ['.']) <+: l

/-- The integer of a list of octets, most significant first. -/
def packList (l : List Nat) : Nat := l.foldl (fun acc x => acc * 256 + x) 0

/-- The complemented bytes `^mask[i]` of the mask of prefix length `p`. -/
def hostMask (p : Nat) : List Nat := (CIDRMask p 32).map (fun m => 255 - m.val)

/-- The invariant of the loops of `generateIPs` for batch capacity `bs`: every batch sent holds
exactly `bs` entries and the batch being filled holds fewer. -/
def BatchInv (bs : Nat) (st : GenState) : Prop :=
  (∀ b ∈ st.sent, b.length = bs) ∧ st.batch.length < bs

/-- A property of the result of a computation that may panic: `P` of the state it returns,
`Q` of what a panic leaves. -/
def resultHolds {σ ε : Type} (P : σ → Prop) (Q : ε → Prop) : Except ε σ → Prop
  | .ok st => P st
  | .error e => Q e

/-- Whether the writer routes the batch to the file `p`: the batch is not empty and `p` is the
path computed from its first entry. -/
def routedTo (p : Str) (batch : List Str) : Bool :=
  match batch with
  | [] => false
  | first :: _ => decide (batchPath first = p)

/-- The text of the batches routed to the file `p`, in the order of the batches. -/
def routedText (p : Str) (batches : List (List Str)) : Str :=
  ((batches.filter (routedTo p)).map List.flatten).flatten

/-- A text that is empty or ends with a newline. -/
def LineClosed (s : Str) : Prop := s = [] ∨ ∃ t, s = t ++ ['\n']

/-- The pattern of file operations `io` without its `j`-th entry. -/
def dropEntry (io : Nat → FileIO) (j : Nat) : Nat → FileIO :=
  fun i => if i < j then io i else io (i + 1)

/-- The batches a producer has still to send. -/
def Producer.pending : Producer → List (List Str)
  | .notStarted bs => bs
  | .running bs => bs
  | .done => []

/-- The batches the producers have still to send. -/
def pendingAll (ps : List Producer) : List (List Str) := (ps.map Producer.pending).flatten

/-- The batches in the system: received by the writer, buffered in the channel, or still to
be sent. -/
def inFlight (s : Pipeline) : List (List Str) := s.received ++ s.chan ++ pendingAll s.producers

/-- The number of steps a producer can still take, counting the receipt of each batch. -/
def Producer.weight : Producer → Nat
  | .notStarted bs => 2 * bs.length + 2
  | .running bs => 2 * bs.length + 1
  | .done => 0

/-- The number of steps the orchestrating function can still take. -/
def MainPc.rank : MainPc → Nat
  | .spawning => 3
  | .waiting => 2
  | .closing => 1
  | .returned => 0

/-- A bound on the number of steps the system can still take. -/
def Pipeline.measure (s : Pipeline) : Nat :=
  (s.producers.map Producer.weight).sum + s.chan.length + s.mainPc.rank +
    (if s.writerExited then 0 else 1)

/-- Once the orchestrating function has left its spawning phase every producer is started. -/
def AllStarted (s : Pipeline) : Prop :=
  s.mainPc ≠ .spawning → ∀ p ∈ s.producers, ∀ b, p ≠ Producer.notStarted b

/-- The bytes of a batch that reach its file: all of them when the file operations succeed,
none when the file does not open, the first `n` when writing fails after `n` bytes. -/
def writtenText (r : FileIO) (batch : List Str) : Str :=
  match r with
  | .ok => batch.flatten
  | .openFails _ => []
  | .writeFails n => batch.flatten.take n

/-- Whether the file of a batch opens (and is created if missing). -/
def opens : FileIO → Bool
  | .openFails _ => false
  | _ => true

/-- The text that reaches the file `p` from the batches of a sequence whose first index is
`i`: for every batch routed to `p`, in order, the bytes that reach its file. -/
def writtenTo (io : Nat → FileIO) (p : Str) (i : Nat) (batches : List (List Str)) : Str :=
  (((batches.enumFrom i).filter (fun ib => routedTo p ib.2)).map
    (fun ib => writtenText (io ib.1) ib.2)).flatten

/-- The line printed for a batch, if any: the open failure line for a non-empty batch whose
file does not open, nothing otherwise. -/
def failureLine (r : FileIO) (batch : List Str) : Option Str :=
  match batch, r with
  | first :: _, .openFails err => some (openFailureLine (batchPath first) err)
  | _, _ => none

/-- The lines printed for a sequence of batches whose first index is `i`: one line for every
non-empty batch whose file does not open, in order. -/
def openFailureLog (io : Nat → FileIO) (i : Nat) (batches : List (List Str)) : List Str :=
  (batches.enumFrom i).filterMap (fun ib => failureLine (io ib.1) ib.2)

/-! # Theorems -/

/-! ## AddressCodec -/

theorem byte_val (n : Nat) : (byte n).val = n % 256 := rfl

/-- The shifts and ors of `ipToUint32` are the big-endian packing of four octets. -/
theorem pack_eq (a b c d : Nat) (ha : a < 256) (hb : b < 256) (hc : c < 256) (hd : d < 256) :
    u32 (a <<< 24) ||| u32 (b <<< 16) ||| u32 (c <<< 8) ||| d
      = a * 2 ^ 24 + b * 2 ^ 16 + c * 2 ^ 8 + d := by
  have e1 : u32 (a <<< 24) = 2 ^ 24 * a := by
    unfold u32; rw [Nat.shiftLeft_eq]; omega
  have e2 : u32 (b <<< 16) = 2 ^ 16 * b := by
    unfold u32; rw [Nat.shiftLeft_eq]; omega
  have e3 : u32 (c <<< 8) = 2 ^ 8 * c := by
    unfold u32; rw [Nat.shiftLeft_eq]; omega
  rw [e1, e2, e3, Nat.lor_assoc, Nat.lor_assoc]
  rw [← Nat.mul_add_lt_is_or (by omega) c, ← Nat.mul_add_lt_is_or (by omega) b,
    ← Nat.mul_add_lt_is_or (by omega) a]
  omega

/-- Unpacking a big-endian packed integer gives the four octets back. -/
theorem uint32ToIP_pack (a b c d : Byte) :
    uint32ToIP (a.val * 2 ^ 24 + b.val * 2 ^ 16 + c.val * 2 ^ 8 + d.val) = IPv4 a b c d := by
  have ha := a.isLt; have hb := b.isLt; have hc := c.isLt; have hd := d.isLt
  unfold uint32ToIP
  congr 1 <;> (apply Fin.ext; rw [byte_val]; try rw [Nat.shiftRight_eq_div_pow]) <;> omega

theorem To4_IPv4 (a b c d : Byte) : To4 (IPv4 a b c d) = [a, b, c, d] := by
  simp [To4, IPv4, v4InV6Prefix, isZeros]

theorem To4_uint32ToIP (n : Nat) :
    To4 (uint32ToIP n) = [byte (n >>> 24), byte (n >>> 16), byte (n >>> 8), byte n] :=
  To4_IPv4 _ _ _ _

theorem ipString_IPv4 (a b c d : Byte) :
    ipString (IPv4 a b c d) = dottedQuad a.val b.val c.val d.val := by
  unfold ipString
  rw [To4_IPv4]
  simp [IPv4, v4InV6Prefix]

/-- An address whose `To4` has four bytes: the shape of that 4-byte form. -/
theorem To4_four (a : IP) (h : (To4 a).length = 4) :
    ∃ x0 x1 x2 x3 : Byte, To4 a = [x0, x1, x2, x3] := by
  match hq : To4 a, h with
  | [x0, x1, x2, x3], _ => exact ⟨x0, x1, x2, x3, rfl⟩

theorem ipToUint32_of_To4 (a : IP) (x0 x1 x2 x3 : Byte) (h : To4 a = [x0, x1, x2, x3]) :
    ipToUint32 a = some (x0.val * 2 ^ 24 + x1.val * 2 ^ 16 + x2.val * 2 ^ 8 + x3.val) := by
  unfold ipToUint32
  rw [h]
  simp only [List.getElem?_cons_zero, List.getElem?_cons_succ, Option.bind_eq_bind,
    Option.some_bind, Option.pure_def]
  rw [pack_eq _ _ _ _ x0.isLt x1.isLt x2.isLt x3.isLt]

theorem ipString_of_To4 (a : IP) (x0 x1 x2 x3 : Byte) (h : To4 a = [x0, x1, x2, x3]) :
    ipString a = dottedQuad x0.val x1.val x2.val x3.val := by
  have hne : a.length ≠ 0 := by
    intro h0
    have : a = [] := List.length_eq_zero.mp h0
    subst this
    simp [To4] at h
  unfold ipString
  rw [if_neg hne, h]

/-- C4: for every valid IPv4 address `a` (its `To4` form has four bytes, which covers the
4-byte and the 16-byte IPv4-mapped representation), `ipToUint32 a` succeeds with a 32-bit value
`n`, and `uint32ToIP n` denotes the same four octets as `a` and prints as the same dotted
quad. -/
theorem C4_roundtrip (a : IP) (h : (To4 a).length = 4) :
    ∃ n, ipToUint32 a = some n ∧ n < 2 ^ 32 ∧ To4 (uint32ToIP n) = To4 a ∧
      ipString (uint32ToIP n) = ipString a := by
  obtain ⟨x0, x1, x2, x3, hx⟩ := To4_four a h
  refine ⟨_, ipToUint32_of_To4 a x0 x1 x2 x3 hx, ?_, ?_, ?_⟩
  · have := x0.isLt; have := x1.isLt; have := x2.isLt; have := x3.isLt
    omega
  · rw [uint32ToIP_pack, To4_IPv4, hx]
  · rw [uint32ToIP_pack, ipString_IPv4, ipString_of_To4 a x0 x1 x2 x3 hx]

/-- C4 at the 16-byte IPv4-mapped form of 192.168.1.77. -/
theorem C4_roundtrip_witness :
    ∃ n, ipToUint32 (IPv4 192 168 1 77) = some n ∧ n < 2 ^ 32 ∧
      To4 (uint32ToIP n) = To4 (IPv4 192 168 1 77) ∧
      ipString (uint32ToIP n) = ipString (IPv4 192 168 1 77) :=
  C4_roundtrip (IPv4 192 168 1 77) (by decide)

/-! ## Range strategy -/

/-- Below the top of the address space the loop of `generateIPsInRange` sends one batch per
integer of `[current, endInt]` and returns. -/
theorem generateIPsInRangeLoop_below_top (n : Nat) :
    ∀ (fuel current endInt : Nat) (sent : List (List Str)),
      current + n = endInt + 1 → endInt < 2 ^ 32 - 1 → n < fuel →
      generateIPsInRangeLoop fuel current endInt sent =
        ⟨sent ++ (List.range n).map (fun i => [ipString (uint32ToIP (current + i)) ++ ['\n']]),
          .returned⟩ := by
  induction n with
  | zero =>
    intro fuel current endInt sent h _ hf
    obtain ⟨f, rfl⟩ : ∃ f, fuel = f + 1 := ⟨fuel - 1, by omega⟩
    have : ¬ current ≤ endInt := by omega
    simp [generateIPsInRangeLoop, this]
  | succ n ih =>
    intro fuel current endInt sent h he hf
    obtain ⟨f, rfl⟩ : ∃ f, fuel = f + 1 := ⟨fuel - 1, by omega⟩
    have hle : current ≤ endInt := by omega
    have hu : u32 (current + 1) = current + 1 := by unfold u32; omega
    rw [generateIPsInRangeLoop, if_pos hle, hu, ih f (current + 1) endInt _ (by omega) he (by omega)]
    simp [List.range_succ_eq_map, Function.comp_def, Nat.add_assoc, Nat.add_comm 1]

/-- With `endInt = 2 ^ 32 - 1` the loop condition `current <= endInt` holds for every `uint32`
value: the loop sends a batch at every round and never returns. -/
theorem generateIPsInRangeLoop_top (fuel : Nat) :
    ∀ (current : Nat) (sent : List (List Str)), current < 2 ^ 32 →
      (generateIPsInRangeLoop fuel current (2 ^ 32 - 1) sent).outcome = .running ∧
      (generateIPsInRangeLoop fuel current (2 ^ 32 - 1) sent).sent.length = sent.length + fuel := by
  induction fuel with
  | zero => intro current sent _; simp [generateIPsInRangeLoop]
  | succ f ih =>
    intro current sent hc
    have hle : current ≤ 2 ^ 32 - 1 := by omega
    have hu : u32 (current + 1) < 2 ^ 32 := by unfold u32; omega
    rw [generateIPsInRangeLoop, if_pos hle]
    obtain ⟨h1, h2⟩ := ih (u32 (current + 1)) (sent ++ [[ipString (uint32ToIP current) ++ ['\n']]]) hu
    refine ⟨h1, ?_⟩
    rw [h2]; simp; omega

/-- For IPv4 addresses with `start <= end < 255.255.255.255`, `generateIPsInRange` sends exactly
`end - start + 1` singleton batches, the `i`-th holding the dotted quad of `start + i` and a
newline, and returns. -/
theorem generateIPsInRange_below_top (fuel : Nat) (start end_ : IP) (s e : Nat)
    (hs : ipToUint32 start = some s) (he : ipToUint32 end_ = some e)
    (hle : s ≤ e) (htop : e < 2 ^ 32 - 1) (hf : e - s + 1 < fuel) :
    generateIPsInRange fuel start end_ =
      ⟨(List.range (e - s + 1)).map (fun i => [ipString (uint32ToIP (s + i)) ++ ['\n']]),
        .returned⟩ := by
  unfold generateIPsInRange
  rw [hs, he]
  simp only
  rw [generateIPsInRangeLoop_below_top (e - s + 1) fuel s e [] (by omega) htop hf]
  simp

/-- The range `[1.0.0.1, 1.0.0.5]`: five singleton batches in ascending order, then the
function returns. -/
theorem generateIPsInRange_example :
    generateIPsInRange 10 [1, 0, 0, 1] [1, 0, 0, 5] =
      ⟨[["1.0.0.1\n".toList], ["1.0.0.2\n".toList], ["1.0.0.3\n".toList], ["1.0.0.4\n".toList],
        ["1.0.0.5\n".toList]], .returned⟩ := by decide

/-- C1 (code at the failing input): with `end = 255.255.255.255` the loop of
`generateIPsInRange` never returns; after any number `fuel` of rounds it is still running and
has sent `fuel` batches, where `end - start + 1 = 1` batch followed by a return is claimed. -/
theorem C1_range_top_never_returns (fuel : Nat) :
    (generateIPsInRange fuel [255, 255, 255, 255] [255, 255, 255, 255]).outcome = .running ∧
    (generateIPsInRange fuel [255, 255, 255, 255] [255, 255, 255, 255]).sent.length = fuel := by
  have hs : ipToUint32 [255, 255, 255, 255] = some (2 ^ 32 - 1) := by decide
  unfold generateIPsInRange
  rw [hs]
  simp only
  have := generateIPsInRangeLoop_top fuel (2 ^ 32 - 1) [] (by omega)
  simpa using this

/-! ## Decimal text of octets and its parsing -/

set_option maxRecDepth 100000 in
theorem toDigits_eq_ubtoa_fin : ∀ k : Fin 256, Nat.toDigits 10 k.val = ubtoa k.val := by decide

/-- For an octet, `%d` and `ubtoa` print the same digits. -/
theorem fmtInt_eq_ubtoa (k : Nat) (h : k < 256) : fmtInt (k : Int) = ubtoa k :=
  toDigits_eq_ubtoa_fin ⟨k, h⟩

set_option maxRecDepth 100000 in
theorem ubtoa_facts_fin : ∀ k : Fin 256,
    (ubtoa k.val).all isDigit = true ∧ ubtoa k.val ≠ [] ∧
    (readDigits (ubtoa k.val) 0 0).map Prod.fst = some k.val ∧
    (ubtoa k.val).getLast?.map isDigit = some true := by decide

theorem ubtoa_all_digits (k : Byte) : ∀ c ∈ ubtoa k.val, isDigit c = true := by
  have h := (ubtoa_facts_fin k).1
  simpa [List.all_eq_true] using h

theorem ubtoa_ne_nil (k : Byte) : ubtoa k.val ≠ [] := (ubtoa_facts_fin k).2.1

theorem isDigit_ne_dot {c : Char} (h : isDigit c = true) : c ≠ '.' := by
  intro hc; subst hc; revert h; decide

theorem isDigit_ne_newline {c : Char} (h : isDigit c = true) : c ≠ '\n' := by
  intro hc; subst hc; revert h; decide

theorem isDigit_ne_colon {c : Char} (h : isDigit c = true) : c ≠ ':' := by
  intro hc; subst hc; revert h; decide

theorem isDigit_ne_percent {c : Char} (h : isDigit c = true) : c ≠ '%' := by
  intro hc; subst hc; revert h; decide

/-- Reading a run of digits with `parseIPv4Fields`. -/
theorem parseIPv4Fields_digits (ds : Str) (hds : ∀ c ∈ ds, isDigit c = true) :
    ∀ (rest : Str) (prev : Option Char) (val digLen : Nat) (fields : List Byte),
      parseIPv4Fields (ds ++ rest) prev val digLen fields =
        match readDigits ds val digLen with
        | none => none
        | some (v, dl) =>
          parseIPv4Fields rest (match ds.getLast? with | some c => some c | none => prev) v dl fields := by
  induction ds with
  | nil => intro rest prev val digLen fields; simp [readDigits]
  | cons c cs ih =>
    intro rest prev val digLen fields
    have hc : isDigit c = true := hds c (List.mem_cons_self _ _)
    have hcs : ∀ x ∈ cs, isDigit x = true := fun x hx => hds x (List.mem_cons_of_mem _ hx)
    rw [List.cons_append, parseIPv4Fields, readDigits]
    simp only [hc, if_true]
    by_cases h1 : digLen = 1 ∧ val = 0
    · simp [h1]
    · rw [if_neg h1, if_neg h1]
      by_cases h2 : val * 10 + (c.toNat - 48) > 255
      · simp [h2]
      · rw [if_neg h2, if_neg h2, ih hcs]
        cases hr : readDigits cs (val * 10 + (c.toNat - 48)) (digLen + 1) with
        | none => rfl
        | some r =>
          cases hl : cs.getLast? with
          | none => simp [List.getLast?_cons, hl]
          | some x => simp [List.getLast?_cons, hl]

/-- One octet followed by a dot and more text: the octet is stored and parsing goes on. -/
theorem parseIPv4Fields_octet_dot (k : Byte) (rest : Str) (hrest : rest ≠ []) (prev : Option Char)
    (fields : List Byte) (hf : fields.length < 3) :
    parseIPv4Fields (ubtoa k.val ++ '.' :: rest) prev 0 0 fields =
      parseIPv4Fields rest (some '.') 0 0 (fields ++ [k]) := by
  obtain ⟨_, _, h3, h4⟩ := ubtoa_facts_fin k
  rw [parseIPv4Fields_digits _ (ubtoa_all_digits k)]
  cases hr : readDigits (ubtoa k.val) 0 0 with
  | none => simp [hr] at h3
  | some r =>
    obtain ⟨v, dl⟩ := r
    have hv : v = k.val := by simpa [hr] using h3
    subst hv
    cases hl : (ubtoa k.val).getLast? with
    | none => simp [hl] at h4
    | some p =>
      have hp : isDigit p = true := by simpa [hl] using h4
      have hpd : p ≠ '.' := isDigit_ne_dot hp
      have hb : byte k.val = k := by apply Fin.ext; rw [byte_val]; exact Nat.mod_eq_of_lt k.isLt
      simp only
      rw [parseIPv4Fields]
      have hnd : isDigit '.' = false := by decide
      simp [hnd, hrest, hpd, hb]
      omega

/-- The last octet. -/
theorem parseIPv4Fields_octet_end (k : Byte) (prev : Option Char) (fields : List Byte)
    (hf : fields.length = 3) :
    parseIPv4Fields (ubtoa k.val) prev 0 0 fields = some (fields ++ [k]) := by
  obtain ⟨_, _, h3, _⟩ := ubtoa_facts_fin k
  have := parseIPv4Fields_digits _ (ubtoa_all_digits k) [] prev 0 0 fields
  rw [List.append_nil] at this
  rw [this]
  cases hr : readDigits (ubtoa k.val) 0 0 with
  | none => simp [hr] at h3
  | some r =>
    obtain ⟨v, dl⟩ := r
    have hv : v = k.val := by simpa [hr] using h3
    subst hv
    have hb : byte k.val = k := by apply Fin.ext; rw [byte_val]; exact Nat.mod_eq_of_lt k.isLt
    simp [parseIPv4Fields, hf, hb]

/-- Parsing the dotted quad of four octets gives the four octets. -/
theorem parseIPv4_dottedQuad (a b c d : Byte) :
    parseIPv4 (dottedQuad a.val b.val c.val d.val) = some [a, b, c, d] := by
  unfold parseIPv4 dottedQuad
  have hd := ubtoa_ne_nil d
  have hb := ubtoa_ne_nil b
  have hc := ubtoa_ne_nil c
  rw [parseIPv4Fields_octet_dot a _ (by simp [hb]) none [] (by simp),
    parseIPv4Fields_octet_dot b _ (by simp [hc]) _ _ (by simp),
    parseIPv4Fields_octet_dot c _ hd _ _ (by simp),
    parseIPv4Fields_octet_end d _ _ (by simp)]
  simp

/-- A character that is neither a digit nor a dot makes `parseIPv4Fields` fail. -/
theorem parseIPv4Fields_bad (s : Str) (h : ∃ c ∈ s, isDigit c = false ∧ c ≠ '.') :
    ∀ (prev : Option Char) (val digLen : Nat) (fields : List Byte),
      parseIPv4Fields s prev val digLen fields = none := by
  induction s with
  | nil => obtain ⟨c, hc, _⟩ := h; simp at hc
  | cons x xs ih =>
    intro prev val digLen fields
    obtain ⟨c, hc, hnd, hndot⟩ := h
    rw [parseIPv4Fields]
    rcases List.mem_cons.mp hc with rfl | hcx
    · simp [hnd, hndot]
    · have ih2 := ih ⟨c, hcx, hnd, hndot⟩
      split_ifs <;> first | rfl | exact ih2 _ _ _ _

/-- Every character of a dotted quad is a digit or a dot. -/
theorem dottedQuad_chars (a b c d : Byte) :
    ∀ x ∈ dottedQuad a.val b.val c.val d.val, isDigit x = true ∨ x = '.' := by
  intro x hx
  unfold dottedQuad at hx
  simp only [List.mem_append, List.mem_cons] at hx
  rcases hx with h | rfl | h | rfl | h | rfl | h
  · exact Or.inl (ubtoa_all_digits a x h)
  · exact Or.inr rfl
  · exact Or.inl (ubtoa_all_digits b x h)
  · exact Or.inr rfl
  · exact Or.inl (ubtoa_all_digits c x h)
  · exact Or.inr rfl
  · exact Or.inl (ubtoa_all_digits d x h)

/-- In a string that starts like a dotted quad, the first of `.` and `:` is a dot. -/
theorem find_dot (ds rest : Str) (hds : ∀ c ∈ ds, isDigit c = true) :
    (ds ++ '.' :: rest).find? (fun c => decide (c = '.' ∨ c = ':')) = some '.' := by
  induction ds with
  | nil => simp
  | cons c cs ih =>
    have hc : isDigit c = true := hds c (List.mem_cons_self _ _)
    have h1 := isDigit_ne_dot hc
    have h2 := isDigit_ne_colon hc
    rw [List.cons_append, List.find?_cons]
    simp only [h1, h2, or_self, decide_False]
    exact ih (fun x hx => hds x (List.mem_cons_of_mem _ hx))

/-- When the first of `.` and `:` in `s` is a dot, `ParseAddr` is the IPv4 parser or fails. -/
theorem ParseAddr_of_dot (s : Str)
    (hfind : s.find? (fun c => decide (c = '.' ∨ c = ':')) = some '.') :
    ParseAddr s = if s.contains '%' then none else (parseIPv4 s).map Addr.v4 := by
  unfold ParseAddr
  rw [hfind]
  split_ifs <;> rfl

/-- `net.ParseIP` of a dotted quad is the IPv4-mapped address of its octets. -/
theorem ParseIP_dottedQuad (a b c d : Byte) :
    ParseIP (dottedQuad a.val b.val c.val d.val) = IPv4 a b c d := by
  have hper : (dottedQuad a.val b.val c.val d.val).contains '%' = false := by
    rw [Bool.eq_false_iff]
    intro h
    have hm : '%' ∈ dottedQuad a.val b.val c.val d.val := by simpa using h
    rcases dottedQuad_chars a b c d _ hm with h1 | h1
    · exact isDigit_ne_percent h1 rfl
    · revert h1; decide
  have hfind : (dottedQuad a.val b.val c.val d.val).find? (fun c => decide (c = '.' ∨ c = ':'))
      = some '.' := find_dot _ _ (ubtoa_all_digits a)
  unfold ParseIP
  rw [ParseAddr_of_dot _ hfind, hper, parseIPv4_dottedQuad]
  rfl

/-- `net.ParseIP` of a dotted quad followed by a newline is nil. -/
theorem ParseIP_dottedQuad_newline (a b c d : Byte) :
    ParseIP (dottedQuad a.val b.val c.val d.val ++ ['\n']) = [] := by
  have hbad : parseIPv4 (dottedQuad a.val b.val c.val d.val ++ ['\n']) = none :=
    parseIPv4Fields_bad _ ⟨'\n', by simp, by decide, by decide⟩ _ _ _ _
  have hfind : (dottedQuad a.val b.val c.val d.val ++ ['\n']).find?
      (fun c => decide (c = '.' ∨ c = ':')) = some '.' := by
    unfold dottedQuad
    rw [List.append_assoc, List.cons_append]
    exact find_dot _ _ (ubtoa_all_digits a)
  unfold ParseIP
  rw [ParseAddr_of_dot _ hfind, hbad]
  split_ifs <;> rfl

/-- The string `generateIPs` formats on line 256 for four octets. -/
theorem sprintfIP_eq (a b c d : Byte) :
    sprintfIP a.val b.val c.val d.val = dottedQuad a.val b.val c.val d.val ++ ['\n'] := by
  unfold sprintfIP dottedQuad
  rw [fmtInt_eq_ubtoa _ a.isLt, fmtInt_eq_ubtoa _ b.isLt, fmtInt_eq_ubtoa _ c.isLt,
    fmtInt_eq_ubtoa _ d.isLt]
  simp [List.append_assoc]

/-- On the dotted quad alone (no newline) `isBogon` is the integer interval check. -/
theorem isBogon_dottedQuad (table : List IntRange) (a b c d : Byte) :
    isBogon table (dottedQuad a.val b.val c.val d.val) =
      some (table.any (fun r =>
        decide (a.val * 2 ^ 24 + b.val * 2 ^ 16 + c.val * 2 ^ 8 + d.val ≥ r.start ∧
          a.val * 2 ^ 24 + b.val * 2 ^ 16 + c.val * 2 ^ 8 + d.val ≤ r.end_))) := by
  unfold isBogon
  rw [ParseIP_dottedQuad, ipToUint32_of_To4 _ a b c d (To4_IPv4 a b c d)]

/-- On the string formatted on line 256 (dotted quad and newline) `isBogon` has no result. -/
theorem isBogon_sprintfIP (table : List IntRange) (a b c d : Byte) :
    isBogon table (sprintfIP a.val b.val c.val d.val) = none := by
  unfold isBogon
  rw [sprintfIP_eq, ParseIP_dottedQuad_newline]
  rfl

/-- C8 (code at the failing inputs): for every IPv4 address `a.b.c.d` and every table, `isBogon`
applied to the string `generateIPs` formats for it on line 256 (the dotted quad followed by a
newline) returns no result: `net.ParseIP` gives nil for a string with a trailing newline and
`ipToUint32` then indexes an empty slice.  On the dotted quad without the newline it does
return the integer interval check. -/
theorem C8_isBogon_formatted_panics (table : List IntRange) (a b c d : Byte) :
    isBogon table (sprintfIP a.val b.val c.val d.val) = none ∧
    isBogon table (dottedQuad a.val b.val c.val d.val) =
      some (table.any (fun r =>
        decide (a.val * 2 ^ 24 + b.val * 2 ^ 16 + c.val * 2 ^ 8 + d.val ≥ r.start ∧
          a.val * 2 ^ 24 + b.val * 2 ^ 16 + c.val * 2 ^ 8 + d.val ≤ r.end_))) := by
  refine ⟨?_, isBogon_dottedQuad table a b c d⟩
  unfold isBogon
  rw [sprintfIP_eq, ParseIP_dottedQuad_newline]
  rfl

/-! ## Full-space strategy -/

/-- A loop whose first round panics panics. -/
theorem forOctets_first_error {σ ε : Type} (n : Nat) (body : Nat → σ → Except ε σ) (st : σ)
    (e : ε) (h : body 0 st = .error e) : forOctets n body st = .error e := by
  unfold forOctets
  rw [List.range_succ_eq_map, List.foldlM_cons, h]
  rfl

/-- With `skipBogon = true` the first round of the innermost loop panics, for any table. -/
theorem generateIPsBody_skip_panics (table : List IntRange) (bs : Nat) (k b c d : Byte)
    (st : GenState) :
    generateIPsBody table bs k.val true b.val c.val d.val st = .error st.sent := by
  unfold generateIPsBody
  simp only [if_true]
  rw [isBogon_sprintfIP table k b c d]

/-- With `skipBogon = true`, `generateIPs` panics on its first candidate, for any table. -/
theorem generateIPs_skipBogon (table : List IntRange) (k : Byte) :
    generateIPs table k.val true = ⟨[], .panicked⟩ := by
  unfold generateIPs generateIPsWith generateIPsLoops
  rw [forOctets_first_error _ _ _ []]
  apply forOctets_first_error
  apply forOctets_first_error
  exact generateIPsBody_skip_panics table batchSize k 0 0 0 ⟨[], []⟩

/-- C2 (code at the failing inputs): for every first octet `k` in 0..255 and every table, in
particular the one built from the 14 listed blocks, `generateIPs(k, ch, skipBogon = true)`
panics on its first candidate address and has sent no batch, where the claim has it complete
and emit every address outside the blocks. -/
theorem C2_generateIPs_skipBogon_panics (table : List IntRange) (k : Byte) :
    generateIPs table k.val true = ⟨[], .panicked⟩ ∧
    generateIPs bogonIntRanges k.val true = ⟨[], .panicked⟩ :=
  ⟨generateIPs_skipBogon table k, generateIPs_skipBogon bogonIntRanges k⟩

/-- Without bogon skipping a round of the innermost loop appends its string to what has been
emitted, whatever the batch capacity. -/
theorem generateIPsBody_noskip (table : List IntRange) (bs : Nat) (k : Int) (b c d : Nat)
    (st : GenState) :
    ∃ st', generateIPsBody table bs k false b c d st = .ok st' ∧
      emitted st' = emitted st ++ [sprintfIP k b c d] := by
  unfold generateIPsBody
  simp only [Bool.false_eq_true, if_false]
  split_ifs
  · exact ⟨_, rfl, by simp [emitted]⟩
  · exact ⟨_, rfl, by simp [emitted]⟩

/-- A loop over a list whose rounds each append `f x` to what has been emitted. -/
theorem foldlM_emit {ε : Type} (body : Nat → GenState → Except ε GenState) (f : Nat → List Str)
    (h : ∀ x st, ∃ st', body x st = .ok st' ∧ emitted st' = emitted st ++ f x) :
    ∀ (l : List Nat) (st : GenState),
      ∃ st', l.foldlM (fun s x => body x s) st = .ok st' ∧
        emitted st' = emitted st ++ l.flatMap f := by
  intro l
  induction l with
  | nil => intro st; exact ⟨st, rfl, by simp⟩
  | cons x xs ih =>
    intro st
    obtain ⟨st1, h1, e1⟩ := h x st
    obtain ⟨st2, h2, e2⟩ := ih st1
    refine ⟨st2, ?_, ?_⟩
    · rw [List.foldlM_cons, h1]; exact h2
    · rw [e2, e1]; simp

theorem forOctets_emit {ε : Type} (n : Nat) (body : Nat → GenState → Except ε GenState)
    (f : Nat → List Str)
    (h : ∀ x st, ∃ st', body x st = .ok st' ∧ emitted st' = emitted st ++ f x) (st : GenState) :
    ∃ st', forOctets n body st = .ok st' ∧
      emitted st' = emitted st ++ (List.range (n + 1)).flatMap f :=
  foldlM_emit body f h _ st

/-- Two nested loops over ranges enumerate the pairs in the order of `i = b * n + c`. -/
theorem range_flatMap_map {α : Type} (m n : Nat) (f : Nat → Nat → α) :
    (List.range m).flatMap (fun b => (List.range n).map (fun c => f b c)) =
      (List.range (m * n)).map (fun i => f (i / n) (i % n)) := by
  induction m with
  | zero => simp
  | succ m ih =>
    rw [List.range_succ, List.flatMap_append, ih, Nat.succ_mul, List.range_add, List.map_append,
      List.map_map]
    congr 1
    simp only [List.flatMap_cons, List.flatMap_nil, List.append_nil]
    apply List.map_congr_left
    intro c hc
    have hc' : c < n := List.mem_range.mp hc
    have hn : 0 < n := by omega
    simp only [Function.comp]
    have e1 : (m * n + c) / n = m := by
      rw [Nat.mul_comm, Nat.mul_add_div hn, Nat.div_eq_of_lt hc']; rfl
    have e2 : (m * n + c) % n = c := by
      rw [Nat.mul_comm, Nat.mul_add_mod, Nat.mod_eq_of_lt hc']
    rw [e1, e2]

/-- Without bogon skipping, `generateIPs` returns, and the concatenation of its batches is the
nested enumeration of the three remaining octets. -/
theorem generateIPsWith_noskip (table : List IntRange) (n bs : Nat) (k : Int) :
    (generateIPsWith table n bs k false).outcome = .returned ∧
    (generateIPsWith table n bs k false).sent.flatten =
      (List.range (n + 1)).flatMap (fun (b : Nat) => (List.range (n + 1)).flatMap (fun (c : Nat) =>
        (List.range (n + 1)).map (fun (d : Nat) => sprintfIP k b c d))) := by
  have h3 : ∀ b c : Nat, ∀ (x : Nat) st, ∃ st', generateIPsBody table bs k false b c x st = .ok st' ∧
      emitted st' = emitted st ++ [sprintfIP k b c x] :=
    fun b c x st => generateIPsBody_noskip table bs k b c x st
  have h2 : ∀ b : Nat, ∀ (c : Nat) st, ∃ st', forOctets n (fun d =>
      generateIPsBody table bs k false b c d) st = .ok st' ∧
      emitted st' = emitted st ++ (List.range (n + 1)).map (fun (d : Nat) => sprintfIP k b c d) := by
    intro b c st
    have := forOctets_emit n _ _ (h3 b c) st
    rwa [← List.map_eq_flatMap] at this
  have h1 : ∀ (b : Nat) st, ∃ st', forOctets n (fun c => forOctets n (fun d =>
      generateIPsBody table bs k false b c d)) st = .ok st' ∧
      emitted st' = emitted st ++ (List.range (n + 1)).flatMap (fun (c : Nat) =>
        (List.range (n + 1)).map (fun (d : Nat) => sprintfIP k b c d)) :=
    fun b st => forOctets_emit n _ _ (h2 b) st
  obtain ⟨st', hst, hem⟩ := forOctets_emit n _ _ h1 ⟨[], []⟩
  unfold generateIPsWith generateIPsLoops
  rw [hst]
  simp only [emitted, List.flatten_nil, List.append_nil, List.nil_append] at hem
  simp only
  split_ifs with hb
  · exact ⟨rfl, by simpa using hem⟩
  · have : st'.batch = [] := by
      cases hbb : st'.batch with
      | nil => rfl
      | cons x xs => simp [hbb] at hb
    refine ⟨rfl, ?_⟩
    rw [← hem, this]; simp

/-- Converting back the address of a 32-bit integer gives the integer. -/
theorem ipToUint32_uint32ToIP (n : Nat) (h : n < 2 ^ 32) : ipToUint32 (uint32ToIP n) = some n := by
  rw [ipToUint32_of_To4 _ _ _ _ _ (To4_uint32ToIP n)]
  simp only [byte_val, Nat.shiftRight_eq_div_pow]
  congr 1
  omega

/-- The text of an address of a shard, octet by octet. -/
theorem shardEntry_eq (k : Byte) (i : Nat) (hi : i < 256 * 256 * 256) :
    shardEntry k.val i =
      dottedQuad k.val (i / (256 * 256)) (i % (256 * 256) / 256) (i % (256 * 256) % 256) ++ ['\n'] := by
  have hk := k.isLt
  unfold shardEntry uint32ToIP
  rw [ipString_IPv4]
  simp only [byte_val, Nat.shiftRight_eq_div_pow]
  congr 2 <;> omega

/-- The integer of an entry of a shard can be read back from its text. -/
theorem decode_shardEntry (k i : Nat) (h : k * 2 ^ 24 + i < 2 ^ 32) :
    ipToUint32 (ParseIP (shardEntry k i).dropLast) = some (k * 2 ^ 24 + i) := by
  unfold shardEntry
  rw [List.dropLast_concat]
  have : ipString (uint32ToIP (k * 2 ^ 24 + i)) =
      dottedQuad (byte ((k * 2 ^ 24 + i) >>> 24)).val (byte ((k * 2 ^ 24 + i) >>> 16)).val
        (byte ((k * 2 ^ 24 + i) >>> 8)).val (byte (k * 2 ^ 24 + i)).val := ipString_IPv4 _ _ _ _
  rw [this, ParseIP_dottedQuad]
  exact ipToUint32_uint32ToIP _ h

/-- Without bogon skipping, the concatenated batches of a shard are its `256^3` entries in
the order of the integer value. -/
theorem generateIPs_noskip_flatten (table : List IntRange) (k : Byte) :
    (generateIPs table k.val false).sent.flatten =
      (List.range (256 * 256 * 256)).map (shardEntry k.val) := by
  unfold generateIPs maxOctet
  rw [(generateIPsWith_noskip table 255 batchSize k.val).2]
  have e1 : ∀ b : Nat, ((List.range (255 + 1)).flatMap fun (c : Nat) =>
      (List.range (255 + 1)).map fun (d : Nat) => sprintfIP (k.val : Int) b c d) =
      (List.range (256 * 256)).map (fun (j : Nat) => sprintfIP (k.val : Int) b ((j / 256 : Nat) : Int)
        ((j % 256 : Nat) : Int)) := by
    intro b
    exact range_flatMap_map 256 256 (fun (c d : Nat) => sprintfIP (k.val : Int) b c d)
  simp only [e1]
  rw [show (255 + 1 : Nat) = 256 from rfl,
    range_flatMap_map 256 (256 * 256) (fun (b j : Nat) => sprintfIP (k.val : Int) b
      ((j / 256 : Nat) : Int) ((j % 256 : Nat) : Int))]
  apply List.map_congr_left
  intro i hi
  have hi' : i < 256 * (256 * 256) := List.mem_range.mp hi
  rw [shardEntry_eq k i (by omega)]
  have hb : i / (256 * 256) < 256 := by omega
  have hc : i % (256 * 256) / 256 < 256 := by omega
  have hd : i % (256 * 256) % 256 < 256 := by omega
  exact sprintfIP_eq k ⟨_, hb⟩ ⟨_, hc⟩ ⟨_, hd⟩

/-- C6: for every first octet `k` in 0..255 (and any table), `generateIPs(k, ch, skipBogon =
false)` returns, and the concatenation of its batches is the list whose `i`-th entry
(`i = 0 .. 256*256*256 - 1`) is the dotted quad of the integer `k * 2^24 + i` followed by a
newline, that is the string `k.b.c.d\n` with `(b, c, d)` the `i`-th triple in lexicographic
order: ascending, without gap; the list has no duplicate, every `k.b.c.d\n` is in it, and
`10.1.2.3` is emitted for `k = 10`, `127.0.0.1` for `k = 127`. -/
theorem C6_generateIPs_all (table : List IntRange) (k : Byte) :
    (generateIPs table k.val false).outcome = .returned ∧
    (generateIPs table k.val false).sent.flatten =
      (List.range (256 * 256 * 256)).map (shardEntry k.val) ∧
    (∀ i, i < 256 * 256 * 256 → shardEntry k.val i =
      dottedQuad k.val (i / (256 * 256)) (i % (256 * 256) / 256) (i % (256 * 256) % 256) ++ ['\n']) ∧
    (generateIPs table k.val false).sent.flatten.length = 256 * 256 * 256 ∧
    (generateIPs table k.val false).sent.flatten.Nodup ∧
    (∀ b c d : Byte, dottedQuad k.val b.val c.val d.val ++ ['\n'] ∈
      (generateIPs table k.val false).sent.flatten) ∧
    "10.1.2.3\n".toList ∈ (generateIPs table 10 false).sent.flatten ∧
    "127.0.0.1\n".toList ∈ (generateIPs table 127 false).sent.flatten := by
  have main := generateIPs_noskip_flatten table
  have mem : ∀ (k b c d : Byte), dottedQuad k.val b.val c.val d.val ++ ['\n'] ∈
      (generateIPs table k.val false).sent.flatten := by
    intro k b c d
    rw [main k, List.mem_map]
    have hb := b.isLt; have hc := c.isLt; have hd := d.isLt
    refine ⟨b.val * (256 * 256) + c.val * 256 + d.val, List.mem_range.mpr (by omega), ?_⟩
    rw [shardEntry_eq k _ (by omega)]
    congr 2 <;> omega
  refine ⟨(generateIPsWith_noskip table 255 batchSize k.val).1, main k, fun i hi => shardEntry_eq k i hi,
    ?_, ?_, mem k, ?_, ?_⟩
  · rw [main k]; simp
  · rw [main k]
    apply List.Nodup.map_on _ (List.nodup_range _)
    intro i hi j hj hij
    have hk := k.isLt
    have hi' : i < 256 * 256 * 256 := List.mem_range.mp hi
    have hj' : j < 256 * 256 * 256 := List.mem_range.mp hj
    have h1 := decode_shardEntry k.val i (by omega)
    have h2 := decode_shardEntry k.val j (by omega)
    rw [hij, h2] at h1
    have := Option.some.inj h1
    omega
  · exact mem 10 1 2 3
  · exact mem 127 0 0 1

/-! ## Prefix strategy -/

/-- The prefix strategy is the range strategy on the network and the broadcast address. -/
theorem generateIPsFromPrefix_eq (fuel : Nat) (ipNet : IPNet) (b : IP)
    (h : getBroadcastAddress ipNet = some b) :
    generateIPsFromPrefix fuel ipNet = generateIPsInRange fuel ipNet.IP b := by
  unfold generateIPsFromPrefix
  rw [h]

/-- C7 (code at the failing input): `net.ParseCIDR` turns `0.0.0.0/0` into the network
`0.0.0.0` with mask `0.0.0.0`, whose broadcast address is `255.255.255.255`; on it
`generateIPsFromPrefix` is `generateIPsInRange` on `[0.0.0.0, 255.255.255.255]`, which never
returns: after any number `fuel` of rounds it is still running and has sent `fuel` batches,
where the claim has it emit the `2^32` addresses of the block and stop.  For
`192.168.1.0/30` it does emit the four addresses of the claim and returns. -/
theorem C7_prefix_top_never_returns (fuel : Nat) :
    ParseCIDR "0.0.0.0/0".toList = some ⟨[0, 0, 0, 0], [0, 0, 0, 0]⟩ ∧
    getBroadcastAddress ⟨[0, 0, 0, 0], [0, 0, 0, 0]⟩ = some [255, 255, 255, 255] ∧
    generateIPsFromPrefix fuel ⟨[0, 0, 0, 0], [0, 0, 0, 0]⟩ =
      generateIPsInRange fuel [0, 0, 0, 0] [255, 255, 255, 255] ∧
    (generateIPsFromPrefix fuel ⟨[0, 0, 0, 0], [0, 0, 0, 0]⟩).outcome = .running ∧
    (generateIPsFromPrefix fuel ⟨[0, 0, 0, 0], [0, 0, 0, 0]⟩).sent.length = fuel ∧
    ParseCIDR "192.168.1.0/30".toList = some ⟨[192, 168, 1, 0], [255, 255, 255, 252]⟩ ∧
    generateIPsFromPrefix 5 ⟨[192, 168, 1, 0], [255, 255, 255, 252]⟩ =
      ⟨[["192.168.1.0\n".toList], ["192.168.1.1\n".toList], ["192.168.1.2\n".toList],
        ["192.168.1.3\n".toList]], .returned⟩ := by
  have hb : getBroadcastAddress ⟨[0, 0, 0, 0], [0, 0, 0, 0]⟩ = some [255, 255, 255, 255] := by
    decide
  have he : generateIPsFromPrefix fuel ⟨[0, 0, 0, 0], [0, 0, 0, 0]⟩ =
      generateIPsInRange fuel [0, 0, 0, 0] [255, 255, 255, 255] :=
    generateIPsFromPrefix_eq fuel _ _ hb
  have hs : ipToUint32 [0, 0, 0, 0] = some 0 := by decide
  have ht : ipToUint32 [255, 255, 255, 255] = some (2 ^ 32 - 1) := by decide
  have hrun : generateIPsInRange fuel [0, 0, 0, 0] [255, 255, 255, 255] =
      generateIPsInRangeLoop fuel 0 (2 ^ 32 - 1) [] := by
    unfold generateIPsInRange
    rw [hs, ht]
  have hl := generateIPsInRangeLoop_top fuel 0 [] (by omega)
  refine ⟨by decide, hb, he, ?_, ?_, by decide, by decide⟩
  · rw [he, hrun]; exact hl.1
  · rw [he, hrun]; simpa using hl.2

/-! ## The pipeline of goroutines -/

theorem countP_isRunning_mid (l r : List Producer) (p : Producer) :
    (l ++ p :: r).countP Producer.isRunning =
      l.countP Producer.isRunning + r.countP Producer.isRunning +
        (if p.isRunning then 1 else 0) := by
  rw [List.countP_append, List.countP_cons]
  omega

/-- The invariant holds right after the writer has been started. -/
theorem PipelineInv_init (work : List (List (List Str))) : PipelineInv (Pipeline.init work) := by
  refine ⟨rfl, rfl, Or.inl rfl, ?_⟩
  show 1 = 1 + (work.map Producer.notStarted).countP Producer.isRunning
  have : (work.map Producer.notStarted).countP Producer.isRunning = 0 := by
    rw [List.countP_eq_zero]
    intro p hp
    obtain ⟨b, _, rfl⟩ := List.mem_map.mp hp
    simp [Producer.isRunning]
  omega

/-- Every step keeps the invariant. -/
theorem PipelineInv_step (cap : Nat) (s t : Pipeline) (h : PipelineInv s) (hst : Step cap s t) :
    PipelineInv t := by
  obtain ⟨hc, hw, hpc, hwg⟩ := h
  cases hst with
  | spawn l r bs hm hp _ =>
    refine ⟨hc, hw, hpc, ?_⟩
    show s.wg + 1 = 1 + (l ++ Producer.running bs :: r).countP Producer.isRunning
    rw [hwg, hp, countP_isRunning_mid, countP_isRunning_mid]
    simp [Producer.isRunning]
    omega
  | startWait hm _ => exact ⟨hc, hw, Or.inr rfl, hwg⟩
  | send l r b bs hp _ _ =>
    refine ⟨hc, hw, hpc, ?_⟩
    show s.wg = 1 + (l ++ Producer.running bs :: r).countP Producer.isRunning
    rw [hwg, hp, countP_isRunning_mid, countP_isRunning_mid]
    simp [Producer.isRunning]
  | finish l r hp =>
    refine ⟨hc, hw, hpc, ?_⟩
    show s.wg - 1 = 1 + (l ++ Producer.done :: r).countP Producer.isRunning
    rw [hwg, hp, countP_isRunning_mid, countP_isRunning_mid]
    simp [Producer.isRunning]
    omega
  | recv b bs _ _ => exact ⟨hc, hw, hpc, hwg⟩
  | writerExit _ _ hcl => rw [hc] at hcl; exact absurd hcl (by decide)
  | waitReturn _ h0 => omega
  | close hm =>
    rcases hpc with h1 | h1 <;> rw [h1] at hm <;> exact absurd hm (by decide)

/-- The invariant holds in every reachable state. -/
theorem PipelineInv_reachable (cap : Nat) (work : List (List (List Str))) (s : Pipeline)
    (h : Reachable cap (Pipeline.init work) s) : PipelineInv s := by
  induction h with
  | refl => exact PipelineInv_init work
  | step t u _ hstep ih => exact PipelineInv_step cap t u ih hstep

/-- With one producer that has the batches `bs` to send, the system reaches the state in which
they are all received, the producer is done and the orchestrating function waits. -/
theorem reach_all_received (cap : Nat) (bs : List (List Str)) :
    Reachable (cap + 1) (Pipeline.init [bs])
      ⟨1, [], false, [Producer.done], false, bs, .waiting⟩ := by
  have loop : ∀ (pending rcv : List (List Str)),
      Reachable (cap + 1) (Pipeline.init [bs])
        ⟨2, [], false, [Producer.running pending], false, rcv, .spawning⟩ →
      Reachable (cap + 1) (Pipeline.init [bs])
        ⟨2, [], false, [Producer.running []], false, rcv ++ pending, .spawning⟩ := by
    intro pending
    induction pending with
    | nil => intro rcv h; simpa using h
    | cons b rest ih =>
      intro rcv h
      have h1 := Reachable.step _ _ h
        (Step.send ⟨2, [], false, [Producer.running (b :: rest)], false, rcv, .spawning⟩
          [] [] b rest rfl (by simp) rfl)
      have h2 := Reachable.step _ _ h1
        (Step.recv ⟨2, [] ++ [b], false, [] ++ Producer.running rest :: [], false, rcv, .spawning⟩
          b [] rfl rfl)
      have := ih (rcv ++ [b]) h2
      simpa using this
  have h0 : Reachable (cap + 1) (Pipeline.init [bs])
      ⟨2, [], false, [Producer.running bs], false, [], .spawning⟩ :=
    Reachable.step _ _ Reachable.refl
      (Step.spawn (Pipeline.init [bs]) [] [] bs rfl rfl (by simp))
  have h1 := loop bs [] h0
  have h2 := Reachable.step _ _ h1
    (Step.finish ⟨2, [], false, [Producer.running []], false, [] ++ bs, .spawning⟩ [] [] rfl)
  have h3 := Reachable.step _ _ h2
    (Step.startWait ⟨2 - 1, [], false, [] ++ Producer.done :: [], false, [] ++ bs, .spawning⟩
      rfl (by simp))
  simpa using h3

/-- In that state no step is possible. -/
theorem stuck_all_received (cap : Nat) (bs : List (List Str)) (t : Pipeline) :
    ¬ Step cap ⟨1, [], false, [Producer.done], false, bs, .waiting⟩ t := by
  intro h
  have single : ∀ (l r : List Producer) (p : Producer), [Producer.done] = l ++ p :: r →
      p = Producer.done := by
    intro l r p hp
    cases l with
    | nil =>
      rw [List.nil_append] at hp
      exact (List.cons.inj hp).1.symm
    | cons x xs =>
      have := congrArg List.length hp
      simp at this
  cases h with
  | spawn l r bs' hm hp _ => exact MainPc.noConfusion hm
  | startWait hm _ => exact MainPc.noConfusion hm
  | send l r b bs' hp _ _ => exact Producer.noConfusion (single l r _ hp)
  | finish l r hp => exact Producer.noConfusion (single l r _ hp)
  | recv b bs' _ hch => exact List.noConfusion hch
  | writerExit _ _ hcl => exact Bool.noConfusion hcl
  | waitReturn _ h0 => exact Nat.succ_ne_zero 0 h0
  | close hm => exact MainPc.noConfusion hm

/-- C3 (the code on every run): in `generateRangeIPs`, `generatePrefixIPs` and `generateAllIPs`
the writer is counted in the same `WaitGroup` as the producers and `close(ipChannel)` comes
after `wg.Wait()`.  In every state reachable from the start, for any channel capacity and any
producers, the channel is not closed, the writer has not left its receive loop and the
function has neither passed `wg.Wait()` nor returned; where the claim has the channel closed
once the producers are done, the writer exit and the function return. -/
theorem C3_never_closes_never_returns (cap : Nat) (work : List (List (List Str))) (s : Pipeline)
    (h : Reachable cap (Pipeline.init work) s) :
    s.closed = false ∧ s.writerExited = false ∧ s.mainPc ≠ .closing ∧ s.mainPc ≠ .returned := by
  obtain ⟨hc, hw, hpc, _⟩ := PipelineInv_reachable cap work s h
  refine ⟨hc, hw, ?_, ?_⟩ <;> rcases hpc with h1 | h1 <;> rw [h1] <;> decide

/-- C3 on the run of `generateRangeIPs` over `[1.0.0.1, 1.0.0.2]` with a channel of capacity 2:
the state in which both batches are received and the producer is done is reachable, and in it
the channel is open, the writer is still in its loop and the function has not returned. -/
theorem C3_never_closes_never_returns_witness :
    Reachable 2 (Pipeline.init [[["1.0.0.1\n".toList], ["1.0.0.2\n".toList]]])
      ⟨1, [], false, [Producer.done], false, [["1.0.0.1\n".toList], ["1.0.0.2\n".toList]],
        .waiting⟩ ∧
    ((⟨1, [], false, [Producer.done], false, [["1.0.0.1\n".toList], ["1.0.0.2\n".toList]],
        .waiting⟩ : Pipeline).closed = false ∧
     (⟨1, [], false, [Producer.done], false, [["1.0.0.1\n".toList], ["1.0.0.2\n".toList]],
        .waiting⟩ : Pipeline).writerExited = false ∧
     (⟨1, [], false, [Producer.done], false, [["1.0.0.1\n".toList], ["1.0.0.2\n".toList]],
        .waiting⟩ : Pipeline).mainPc ≠ .closing ∧
     (⟨1, [], false, [Producer.done], false, [["1.0.0.1\n".toList], ["1.0.0.2\n".toList]],
        .waiting⟩ : Pipeline).mainPc ≠ .returned) :=
  ⟨reach_all_received 1 _, C3_never_closes_never_returns 2 _ _ (reach_all_received 1 _)⟩

/-! ## Orchestrator -/

/-- C9 (code at the failing inputs): `handleRangeOption` accepts the IPv6 addresses `::1` and
`::2` (`net.ParseIP` is not nil on them) and calls `generateRangeIPs` with their 16-byte
forms, whose `To4` is nil: `ipToUint32` indexes an empty slice and the producer panics.
`handlePrefixOption` likewise accepts the IPv6 prefix `::/127` and the producer panics on its
network address.  The claim has every accepted address a valid IPv4 address and an IPv6 input
rejected before the producer. -/
theorem C9_ipv6_input_reaches_producer :
    ParseIP "::1".toList = [0, 0, 0, 0, 0, 0, 0, 0, 0, 0, 0, 0, 0, 0, 0, 1] ∧
    ParseIP "::2".toList = [0, 0, 0, 0, 0, 0, 0, 0, 0, 0, 0, 0, 0, 0, 0, 2] ∧
    Action.generateRangeIPs [0, 0, 0, 0, 0, 0, 0, 0, 0, 0, 0, 0, 0, 0, 0, 1]
      [0, 0, 0, 0, 0, 0, 0, 0, 0, 0, 0, 0, 0, 0, 0, 2] ∈
      handleRangeOption "::1".toList "::2".toList ∧
    To4 [0, 0, 0, 0, 0, 0, 0, 0, 0, 0, 0, 0, 0, 0, 0, 1] = [] ∧
    ipToUint32 [0, 0, 0, 0, 0, 0, 0, 0, 0, 0, 0, 0, 0, 0, 0, 1] = none ∧
    (∀ fuel, generateIPsInRange fuel [0, 0, 0, 0, 0, 0, 0, 0, 0, 0, 0, 0, 0, 0, 0, 1]
      [0, 0, 0, 0, 0, 0, 0, 0, 0, 0, 0, 0, 0, 0, 0, 2] = ⟨[], .panicked⟩) ∧
    ParseCIDR "::/127".toList =
      some ⟨[0, 0, 0, 0, 0, 0, 0, 0, 0, 0, 0, 0, 0, 0, 0, 0],
        [255, 255, 255, 255, 255, 255, 255, 255, 255, 255, 255, 255, 255, 255, 255, 254]⟩ ∧
    Action.generatePrefixIPs ⟨[0, 0, 0, 0, 0, 0, 0, 0, 0, 0, 0, 0, 0, 0, 0, 0],
        [255, 255, 255, 255, 255, 255, 255, 255, 255, 255, 255, 255, 255, 255, 255, 254]⟩ ∈
      handlePrefixOption "::/127".toList ∧
    (∀ fuel, generateIPsFromPrefix fuel ⟨[0, 0, 0, 0, 0, 0, 0, 0, 0, 0, 0, 0, 0, 0, 0, 0],
        [255, 255, 255, 255, 255, 255, 255, 255, 255, 255, 255, 255, 255, 255, 255, 254]⟩ =
      ⟨[], .panicked⟩) := by
  refine ⟨by decide, by decide, by decide, by decide, by decide, fun fuel => rfl, by decide,
    by decide, fun fuel => rfl⟩

/-- C10 as stated fails: on the invalid menu selection 7 the program calls `os.MkdirAll` on the
output directory before it looks at the selection, so not every action is console output. -/
theorem C10_counterexample :
    Console.invalid ⟨7, [], [], [], 0, true⟩ ∧
    Action.mkdirAll dirName ∈ main ⟨7, [], [], [], 0, true⟩ ∧
    ¬ (∀ a ∈ main ⟨7, [], [], [], 0, true⟩, a.isPrint = true) := by
  refine ⟨Or.inl (by decide), by decide, ?_⟩
  intro h
  exact absurd (h (Action.mkdirAll dirName) (by decide)) (by decide)

/-- C10, amended: for every run in which the menu selection is invalid or an entered
address or prefix fails to parse, the program starts no producer and no writer (no call into
the pipeline, hence no file is written); its actions are console output and the one call
`os.MkdirAll` on the output directory, which is made before the selection is examined; and
its last action is the print of a message. -/
theorem C10_invalid_run (c : Console) (h : c.invalid) :
    (∀ a ∈ main c, a.isPipeline = false) ∧
    (∀ a ∈ main c, a.isPrint = true ∨ a = Action.mkdirAll dirName) ∧
    Action.mkdirAll dirName ∈ main c ∧
    (∃ msg, (main c).getLast? = some (Action.print msg)) := by
  obtain ⟨option, startIP, endIP, ipPrefix, choice, mkdirOk⟩ := c
  cases mkdirOk with
  | false =>
    refine ⟨?_, ?_, ?_, ?_⟩ <;> simp [main, Action.isPipeline, Action.isPrint]
  | true =>
    rcases h with ⟨h1, h2, h3⟩ | ⟨h1, h2, h3⟩ | ⟨h1, h2⟩ | ⟨h1, h2⟩
    · simp only [] at h1 h2 h3
      refine ⟨?_, ?_, ?_, ?_⟩ <;> simp [main, h1, h2, h3, Action.isPipeline, Action.isPrint]
    · simp only [] at h1 h2 h3
      subst h1
      refine ⟨?_, ?_, ?_, ?_⟩ <;>
        simp [main, handleAllIPOption, h2, h3, Action.isPipeline, Action.isPrint]
    · simp only [] at h1 h2
      subst h1
      have hc : (ParseIP startIP = [] ∨ ParseIP endIP = []) := h2
      refine ⟨?_, ?_, ?_, ?_⟩ <;>
        simp [main, handleRangeOption, hc, Action.isPipeline, Action.isPrint]
    · simp only [] at h1 h2
      subst h1
      refine ⟨?_, ?_, ?_, ?_⟩ <;>
        simp [main, handlePrefixOption, h2, Action.isPipeline, Action.isPrint]

/-- C10 (amended) on the unparsable start address `1.2.3` in mode 1. -/
theorem C10_invalid_run_witness :
    Console.invalid ⟨1, "1.2.3".toList, "1.2.3.4".toList, [], 0, true⟩ ∧
    ((∀ a ∈ main ⟨1, "1.2.3".toList, "1.2.3.4".toList, [], 0, true⟩, a.isPipeline = false) ∧
    (∀ a ∈ main ⟨1, "1.2.3".toList, "1.2.3.4".toList, [], 0, true⟩,
      a.isPrint = true ∨ a = Action.mkdirAll dirName) ∧
    Action.mkdirAll dirName ∈ main ⟨1, "1.2.3".toList, "1.2.3.4".toList, [], 0, true⟩ ∧
    (∃ msg, (main ⟨1, "1.2.3".toList, "1.2.3.4".toList, [], 0, true⟩).getLast? =
      some (Action.print msg))) :=
  ⟨Or.inr (Or.inr (Or.inl ⟨rfl, Or.inl (by decide)⟩)),
    C10_invalid_run _ (Or.inr (Or.inr (Or.inl ⟨rfl, Or.inl (by decide)⟩)))⟩

/-! ## FileWriter: routing by first octet -/

/-- A text without newline followed by a newline is one line, joined to the open line. -/
theorem linesFrom_body (body : Str) (hb : '\n' ∉ body) :
    ∀ (rest cur : Str), linesFrom (body ++ '\n' :: rest) cur = (cur ++ body) :: linesFrom rest [] := by
  induction body with
  | nil => intro rest cur; simp [linesFrom]
  | cons x xs ih =>
    intro rest cur
    have hx : x ≠ '\n' := fun h => hb (h ▸ List.mem_cons_self _ _)
    have hxs : '\n' ∉ xs := fun h => hb (List.mem_cons_of_mem _ h)
    rw [List.cons_append, linesFrom, if_neg hx, ih hxs]
    simp

/-- Appending one entry (a text without newline that begins with `p`, and a newline) to a
text whose lines all begin with `p` gives a text whose lines all begin with `p`. -/
theorem linesFrom_append_entry (p body : Str) (hp : p <+: body) (hb : '\n' ∉ body) :
    ∀ (s cur : Str), (∀ l ∈ linesFrom s cur, p <+: l) →
      ∀ l ∈ linesFrom (s ++ (body ++ ['\n'])) cur, p <+: l := by
  intro s
  induction s with
  | nil =>
    intro cur h l hl
    rw [List.nil_append, linesFrom_body body hb] at hl
    simp only [linesFrom, if_true, List.mem_singleton] at hl
    subst hl
    by_cases hc : cur = []
    · subst hc; simpa using hp
    · have : p <+: cur := h cur (by simp [linesFrom, hc])
      exact this.trans (List.prefix_append _ _)
  | cons x xs ih =>
    intro cur h l hl
    rw [List.cons_append, linesFrom] at hl
    rw [linesFrom] at h
    by_cases hx : x = '\n'
    · rw [if_pos hx] at hl h
      rcases List.mem_cons.mp hl with rfl | hl'
      · exact h _ (List.mem_cons_self _ _)
      · exact ih [] (fun l' hl'' => h l' (List.mem_cons_of_mem _ hl'')) l hl'
    · rw [if_neg hx] at hl h
      exact ih _ h l hl

/-- The same for a whole batch of entries appended to a file. -/
theorem linesOf_append_entries (p : Str) (entries : List Str)
    (he : ∀ e ∈ entries, ∃ body, e = body ++ ['\n'] ∧ p <+: body ∧ '\n' ∉ body) :
    ∀ (content : Str), (∀ l ∈ linesOf content, p <+: l) →
      ∀ l ∈ linesOf (content ++ entries.flatten), p <+: l := by
  induction entries with
  | nil => intro content h; simpa using h
  | cons e es ih =>
    intro content h
    obtain ⟨body, rfl, hp, hb⟩ := he e (List.mem_cons_self _ _)
    have h1 : ∀ l ∈ linesOf (content ++ (body ++ ['\n'])), p <+: l :=
      linesFrom_append_entry p body hp hb content [] h
    have := ih (fun e' he' => he e' (List.mem_cons_of_mem _ he')) _ h1
    simpa [List.append_assoc] using this

/-- `strings.Split(s, ".")[0]` of digits followed by a dot is the digits. -/
theorem splitDot_head (ds rest : Str) (hds : ∀ c ∈ ds, isDigit c = true) :
    (splitDot (ds ++ '.' :: rest)).headD [] = ds := by
  induction ds with
  | nil => simp [splitDot]
  | cons c cs ih =>
    have hc : c ≠ '.' := isDigit_ne_dot (hds c (List.mem_cons_self _ _))
    have ih' := ih (fun x hx => hds x (List.mem_cons_of_mem _ hx))
    rw [List.cons_append, splitDot, if_neg hc]
    cases hs : splitDot (cs ++ '.' :: rest) with
    | nil => rw [hs] at ih'; simp at ih'; simp [← ih']
    | cons h t => rw [hs] at ih'; simp at ih'; simp [ih']

set_option maxRecDepth 100000 in
theorem Atoi_ubtoa_fin : ∀ k : Fin 256, Atoi (ubtoa k.val) = (k.val : Int) := by decide

/-- The path `writeToFile` computes from an entry with first octet `k` is `result/k.txt`. -/
theorem batchPath_entry (k b c d : Byte) :
    batchPath (dottedQuad k.val b.val c.val d.val ++ ['\n']) = outPath k.val := by
  have e : dottedQuad k.val b.val c.val d.val ++ ['\n'] =
      ubtoa k.val ++ '.' :: ((ubtoa b.val ++ '.' :: (ubtoa c.val ++ '.' :: ubtoa d.val)) ++ ['\n']) := by
    unfold dottedQuad; simp
  unfold batchPath outPath
  rw [e]
  dsimp only
  rw [splitDot_head _ _ (ubtoa_all_digits k), Atoi_ubtoa_fin k]

/-- An entry with first octet `k` is one line that begins with `k.`. -/
theorem entry_line (k b c d : Byte) :
    ∃ body, dottedQuad k.val b.val c.val d.val ++ ['\n'] = body ++ ['\n'] ∧
      (fmtInt k.val ++ ['.']) <+: body ∧ '\n' ∉ body := by
  refine ⟨dottedQuad k.val b.val c.val d.val, rfl, ?_, ?_⟩
  · rw [fmtInt_eq_ubtoa _ k.isLt]
    unfold dottedQuad
    exact ⟨ubtoa b.val ++ '.' :: (ubtoa c.val ++ '.' :: ubtoa d.val), by simp⟩
  · intro h
    rcases dottedQuad_chars k b c d _ h with h1 | h1
    · exact isDigit_ne_newline h1 rfl
    · revert h1; decide

/-- The batches the loop of `generateIPsInRange` adds are singletons holding the text of an
address and a newline. -/
theorem generateIPsInRangeLoop_batches (fuel : Nat) :
    ∀ (current endInt : Nat) (sent : List (List Str)) (batch : List Str),
      batch ∈ (generateIPsInRangeLoop fuel current endInt sent).sent →
      batch ∈ sent ∨ ∃ n, batch = [ipString (uint32ToIP n) ++ ['\n']] := by
  induction fuel with
  | zero => intro current endInt sent batch h; exact Or.inl h
  | succ f ih =>
    intro current endInt sent batch h
    rw [generateIPsInRangeLoop] at h
    split_ifs at h
    · rcases ih _ _ _ _ h with h1 | h1
      · rcases List.mem_append.mp h1 with h2 | h2
        · exact Or.inl h2
        · exact Or.inr ⟨current, by simpa using h2⟩
      · exact Or.inr h1
    · exact Or.inl h

/-- Every batch `generateIPsInRange` sends has entries of one first octet. -/
theorem generateIPsInRange_batches (fuel : Nat) (start end_ : IP) (batch : List Str)
    (h : batch ∈ (generateIPsInRange fuel start end_).sent) :
    ∃ k : Byte, batch ≠ [] ∧ ProducerBatch k batch := by
  have key : ∃ n, batch = [ipString (uint32ToIP n) ++ ['\n']] := by
    unfold generateIPsInRange at h
    cases hs : ipToUint32 start with
    | none => rw [hs] at h; simp at h
    | some s =>
      cases he : ipToUint32 end_ with
      | none => rw [hs, he] at h; simp at h
      | some e =>
        rw [hs, he] at h
        rcases generateIPsInRangeLoop_batches fuel s e [] batch h with h1 | h1
        · simp at h1
        · exact h1
  obtain ⟨n, rfl⟩ := key
  refine ⟨byte (n >>> 24), by simp, ?_⟩
  intro e he
  rw [List.mem_singleton] at he
  subst he
  exact ⟨byte (n >>> 16), byte (n >>> 8), byte n, by rw [← ipString_IPv4]; rfl⟩

/-- Every batch `generateIPs` sends for a first octet `k` in 0..255 has entries of first
octet `k`. -/
theorem generateIPs_batches (table : List IntRange) (k : Byte) (skipBogon : Bool)
    (batch : List Str) (h : batch ∈ (generateIPs table k.val skipBogon).sent) :
    ProducerBatch k batch := by
  cases skipBogon with
  | true => rw [generateIPs_skipBogon] at h; simp at h
  | false =>
    intro e he
    have hmem : e ∈ (generateIPs table k.val false).sent.flatten :=
      List.mem_flatten.mpr ⟨batch, h, he⟩
    rw [generateIPs_noskip_flatten, List.mem_map] at hmem
    obtain ⟨i, hi, rfl⟩ := hmem
    have hi' : i < 256 * 256 * 256 := List.mem_range.mp hi
    have hb : i / (256 * 256) < 256 := by omega
    have hc : i % (256 * 256) / 256 < 256 := by omega
    have hd : i % (256 * 256) % 256 < 256 := by omega
    exact ⟨⟨_, hb⟩, ⟨_, hc⟩, ⟨_, hd⟩, shardEntry_eq k i hi'⟩

/-- Every batch sent by a producer has entries of one first octet. -/
theorem SentByProducer_batch (table : List IntRange) (batch : List Str)
    (h : SentByProducer table batch) : ∃ k : Byte, ProducerBatch k batch := by
  rcases h with ⟨fuel, start, end_, h⟩ | ⟨fuel, ipNet, h⟩ | ⟨k, skipBogon, h⟩
  · obtain ⟨k, _, hk⟩ := generateIPsInRange_batches fuel start end_ batch h
    exact ⟨k, hk⟩
  · unfold generateIPsFromPrefix at h
    cases hb : getBroadcastAddress ipNet with
    | none => rw [hb] at h; simp at h
    | some b =>
      rw [hb] at h
      obtain ⟨k, _, hk⟩ := generateIPsInRange_batches fuel ipNet.IP b batch h
      exact ⟨k, hk⟩
  · exact ⟨k, generateIPs_batches table k skipBogon batch h⟩

/-- Two output paths are equal only for the same file name. -/
theorem outPath_inj (j k : Int) (h : outPath j = outPath k) : fmtInt j = fmtInt k := by
  unfold outPath at h
  have h1 := List.append_cancel_left h
  have h2 := (List.cons.inj h1).2
  exact List.append_cancel_right h2

/-- Appending a producer batch to its file keeps every file `k.txt` made of lines `k. ...`. -/
theorem FilesRouted_append (fs : FS) (k : Byte) (batch : List Str) (hb : ProducerBatch k batch)
    (hfs : FilesRouted fs) : FilesRouted (fs.append (outPath k.val) batch.flatten) := by
  intro j content hj
  unfold FS.append at hj
  by_cases hp : outPath (j : Int) = outPath (k.val : Int)
  · rw [if_pos hp] at hj
    have hjk : fmtInt (j : Int) = fmtInt (k.val : Int) := outPath_inj _ _ hp
    have hcontent := Option.some.inj hj
    rw [← hcontent, hjk]
    apply linesOf_append_entries
    · intro e he
      obtain ⟨b, c, d, rfl⟩ := hb e he
      exact entry_line k b c d
    · cases hf : fs (outPath (j : Int)) with
      | none => simp [linesOf, linesFrom]
      | some old =>
        have := hfs j old hf
        rw [hjk] at this
        simpa using this
  · rw [if_neg hp] at hj
    exact hfs j content hj

/-- One round of the writer keeps the files routed, when no write is cut short. -/
theorem FilesRouted_writeBatch (fs : FS) (batch : List Str) (io : FileIO)
    (hio : ∀ n, io ≠ .writeFails n) (hb : ∃ k : Byte, ProducerBatch k batch)
    (hfs : FilesRouted fs) : FilesRouted (writeBatch fs batch io).1 := by
  obtain ⟨k, hk⟩ := hb
  cases batch with
  | nil => exact hfs
  | cons first rest =>
    cases io with
    | openFails err => exact hfs
    | writeFails n => exact absurd rfl (hio n)
    | ok =>
      obtain ⟨b, c, d, hfirst⟩ := hk first (List.mem_cons_self _ _)
      show FilesRouted (fs.append (batchPath first) (first :: rest).flatten)
      rw [hfirst, batchPath_entry, ← hfirst]
      exact FilesRouted_append fs k _ hk hfs

theorem FilesRouted_writeToFileFrom (io : Nat → FileIO) (hio : ∀ i n, io i ≠ .writeFails n) :
    ∀ (batches : List (List Str)) (i : Nat) (fs : FS) (log : List Str),
      (∀ b ∈ batches, ∃ k : Byte, ProducerBatch k b) → FilesRouted fs →
      FilesRouted (writeToFileFrom io i batches (fs, log)).1 := by
  intro batches
  induction batches with
  | nil => intro i fs log _ hfs; exact hfs
  | cons b bs ih =>
    intro i fs log hb hfs
    rw [writeToFileFrom]
    exact ih (i + 1) _ _ (fun b' hb' => hb b' (List.mem_cons_of_mem _ hb'))
      (FilesRouted_writeBatch fs b (io i) (hio i) (hb b (List.mem_cons_self _ _)) hfs)

/-! ## Codec: packing, inverse, and the empty range -/

/-- C13: for every pair of IPv4 addresses with `ipToUint32(start) > ipToUint32(end)`,
`generateIPsInRange` sends no batch and returns normally (the first test of the loop
condition fails), without a panic. -/
theorem C13_empty_range (fuel : Nat) (start end_ : IP) (s e : Nat)
    (hs : ipToUint32 start = some s) (he : ipToUint32 end_ = some e) (hgt : s > e) :
    generateIPsInRange (fuel + 1) start end_ = ⟨[], .returned⟩ := by
  unfold generateIPsInRange
  rw [hs, he]
  simp only
  rw [generateIPsInRangeLoop, if_neg (by omega)]

/-- C13 on the range from 1.0.0.5 down to 1.0.0.1. -/
theorem C13_empty_range_witness :
    generateIPsInRange (0 + 1) [1, 0, 0, 5] [1, 0, 0, 1] = ⟨[], .returned⟩ :=
  C13_empty_range 0 [1, 0, 0, 5] [1, 0, 0, 1] 16777221 16777217 (by decide) (by decide) (by decide)

/-- C16: for every IPv4 address with octets `a, b, c, d`, in the 4-byte or the IPv4-mapped
16-byte form, `ipToUint32` returns `a*2^24 + b*2^16 + c*2^8 + d`, a value below `2^32`; and
the value of one address is below the value of another exactly when its octets come first
in the lexicographic order. -/
theorem C16_ipToUint32_packing (a b c d a' b' c' d' : Byte) :
    ipToUint32 [a, b, c, d] = some (a.val * 2 ^ 24 + b.val * 2 ^ 16 + c.val * 2 ^ 8 + d.val) ∧
    ipToUint32 (IPv4 a b c d) = some (a.val * 2 ^ 24 + b.val * 2 ^ 16 + c.val * 2 ^ 8 + d.val) ∧
    a.val * 2 ^ 24 + b.val * 2 ^ 16 + c.val * 2 ^ 8 + d.val < 2 ^ 32 ∧
    (a.val * 2 ^ 24 + b.val * 2 ^ 16 + c.val * 2 ^ 8 + d.val <
        a'.val * 2 ^ 24 + b'.val * 2 ^ 16 + c'.val * 2 ^ 8 + d'.val ↔
      (a.val < a'.val ∨ (a.val = a'.val ∧ (b.val < b'.val ∨ (b.val = b'.val ∧
        (c.val < c'.val ∨ (c.val = c'.val ∧ d.val < d'.val))))))) := by
  have ha := a.isLt; have hb := b.isLt; have hc := c.isLt; have hd := d.isLt
  have ha' := a'.isLt; have hb' := b'.isLt; have hc' := c'.isLt; have hd' := d'.isLt
  refine ⟨ipToUint32_of_To4 _ a b c d (by simp [To4]),
    ipToUint32_of_To4 _ a b c d (To4_IPv4 a b c d), by omega, by omega⟩

/-- C17: `uint32ToIP` is total and inverse to `ipToUint32`: for every 32-bit unsigned integer
`n` the result is a 16-byte IPv4-mapped address whose `To4` form has four bytes, and
`ipToUint32` of it is `n`. -/
theorem C17_uint32ToIP_inverse (n : Fin (2 ^ 32)) :
    (uint32ToIP n.val).length = 16 ∧ (To4 (uint32ToIP n.val)).length = 4 ∧
    ipToUint32 (uint32ToIP n.val) = some n.val := by
  refine ⟨by simp [uint32ToIP, IPv4, v4InV6Prefix], by rw [To4_uint32ToIP]; rfl,
    ipToUint32_uint32ToIP n.val n.isLt⟩

/-- C18: the startup loop of `main`, run on the fixed list `bogonRanges`, ends without a panic
with exactly 14 intervals in list order, none skipped: the `i`-th one is the pair of integers
of the network address and the broadcast address of the `i`-th block (`10.0.0.0/8` gives
`[167772160, 184549375]`, `240.0.0.0/4` gives `[4026531840, 4294967295]`), and every interval
has `start <= end`. -/
theorem C18_bogon_table :
    buildBogonIntRanges bogonRanges [] = some
      [⟨0, 16777215⟩, ⟨167772160, 184549375⟩, ⟨1681915904, 1686110207⟩,
       ⟨2130706432, 2147483647⟩, ⟨2851995648, 2852061183⟩, ⟨2886729728, 2887778303⟩,
       ⟨3221225472, 3221225727⟩, ⟨3221225984, 3221226239⟩, ⟨3232235520, 3232301055⟩,
       ⟨3323068416, 3323199487⟩, ⟨3325256704, 3325256959⟩, ⟨3405803776, 3405804031⟩,
       ⟨3758096384, 4026531839⟩, ⟨4026531840, 4294967295⟩] ∧
    bogonRanges.length = 14 ∧ bogonIntRanges.length = 14 ∧
    (∀ i : Fin 14, ∃ ipNet b,
      ParseCIDR (bogonRanges.getD i.val []) = some ipNet ∧ getBroadcastAddress ipNet = some b ∧
      ipToUint32 ipNet.IP = some (bogonIntRanges.getD i.val ⟨0, 0⟩).start ∧
      ipToUint32 b = some (bogonIntRanges.getD i.val ⟨0, 0⟩).end_) ∧
    bogonIntRanges.getD 1 ⟨0, 0⟩ = ⟨167772160, 184549375⟩ ∧
    bogonIntRanges.getD 13 ⟨0, 0⟩ = ⟨4026531840, 4294967295⟩ ∧
    (∀ r ∈ bogonIntRanges, r.start ≤ r.end_) := by
  have h : ∀ i : Fin 14,
      (match ParseCIDR (bogonRanges.getD i.val []) with
       | none => false
       | some ipNet =>
         match getBroadcastAddress ipNet with
         | none => false
         | some b =>
           decide (ipToUint32 ipNet.IP = some (bogonIntRanges.getD i.val ⟨0, 0⟩).start ∧
             ipToUint32 b = some (bogonIntRanges.getD i.val ⟨0, 0⟩).end_)) = true := by
    decide
  refine ⟨by decide, by decide, by decide, ?_, by decide, by decide, by decide⟩
  intro i
  have hi := h i
  cases hp : ParseCIDR (bogonRanges.getD i.val []) with
  | none => rw [hp] at hi; exact Bool.noConfusion hi
  | some ipNet =>
    rw [hp] at hi
    cases hb : getBroadcastAddress ipNet with
    | none => simp only [hb] at hi; exact Bool.noConfusion hi
    | some b =>
      simp only [hb] at hi
      exact ⟨ipNet, b, rfl, hb, of_decide_eq_true hi⟩

/-- C20 (code at the failing inputs): for every IPv4 start address `a.b.c.d` and the end
address `255.255.255.255`, `generateIPsInRange` does not terminate: after any number `fuel`
of rounds it is still in its loop and has sent `fuel` batches, the `uint32` counter wrapping
from `2^32 - 1` to `0`.  The same holds through `generateIPsFromPrefix` for the block
`240.0.0.0/4`, which ends at the top of the address space. -/
theorem C20_no_termination_at_top (fuel : Nat) (a b c d : Byte) :
    (generateIPsInRange fuel [a, b, c, d] [255, 255, 255, 255]).outcome = .running ∧
    (generateIPsInRange fuel [a, b, c, d] [255, 255, 255, 255]).sent.length = fuel ∧
    u32 (2 ^ 32 - 1 + 1) = 0 ∧
    ParseCIDR "240.0.0.0/4".toList = some ⟨[240, 0, 0, 0], [240, 0, 0, 0]⟩ ∧
    (generateIPsFromPrefix fuel ⟨[240, 0, 0, 0], [240, 0, 0, 0]⟩).outcome = .running ∧
    (generateIPsFromPrefix fuel ⟨[240, 0, 0, 0], [240, 0, 0, 0]⟩).sent.length = fuel := by
  have ha := a.isLt; have hb := b.isLt; have hc := c.isLt; have hd := d.isLt
  have hs : ipToUint32 [a, b, c, d] =
      some (a.val * 2 ^ 24 + b.val * 2 ^ 16 + c.val * 2 ^ 8 + d.val) :=
    ipToUint32_of_To4 _ a b c d (by simp [To4])
  have ht : ipToUint32 [255, 255, 255, 255] = some (2 ^ 32 - 1) := by decide
  have h1 : generateIPsInRange fuel [a, b, c, d] [255, 255, 255, 255] =
      generateIPsInRangeLoop fuel (a.val * 2 ^ 24 + b.val * 2 ^ 16 + c.val * 2 ^ 8 + d.val)
        (2 ^ 32 - 1) [] := by
    unfold generateIPsInRange
    rw [hs, ht]
  have hl := generateIPsInRangeLoop_top fuel
    (a.val * 2 ^ 24 + b.val * 2 ^ 16 + c.val * 2 ^ 8 + d.val) [] (by omega)
  have hbc : getBroadcastAddress ⟨[240, 0, 0, 0], [240, 0, 0, 0]⟩ = some [255, 255, 255, 255] := by
    decide
  have hs2 : ipToUint32 [240, 0, 0, 0] = some 4026531840 := by decide
  have h2 : generateIPsFromPrefix fuel ⟨[240, 0, 0, 0], [240, 0, 0, 0]⟩ =
      generateIPsInRangeLoop fuel 4026531840 (2 ^ 32 - 1) [] := by
    rw [generateIPsFromPrefix_eq fuel _ _ hbc]
    unfold generateIPsInRange
    rw [hs2, ht]
  have hl2 := generateIPsInRangeLoop_top fuel 4026531840 [] (by omega)
  refine ⟨?_, ?_, by decide, by decide, ?_, ?_⟩
  · rw [h1]; exact hl.1
  · rw [h1]; simpa using hl.2
  · rw [h2]; exact hl2.1
  · rw [h2]; simpa using hl2.2

/-! ## Broadcast address -/

theorem shiftLeft_lor (x y k : Nat) : (x ||| y) <<< k = x <<< k ||| y <<< k := by
  apply Nat.eq_of_testBit_eq
  intro i
  simp only [Nat.testBit_shiftLeft, Nat.testBit_or]
  cases decide (i ≥ k) <;> simp

/-- The big-endian packing of four octets as shifts and ors. -/
theorem pack_or_form (a b c d : Nat) (ha : a < 256) (hb : b < 256) (hc : c < 256) (hd : d < 256) :
    a * 2 ^ 24 + b * 2 ^ 16 + c * 2 ^ 8 + d = a <<< 24 ||| b <<< 16 ||| c <<< 8 ||| d := by
  rw [← pack_eq a b c d ha hb hc hd]
  have e1 : u32 (a <<< 24) = a <<< 24 := by
    unfold u32; rw [Nat.shiftLeft_eq]; omega
  have e2 : u32 (b <<< 16) = b <<< 16 := by
    unfold u32; rw [Nat.shiftLeft_eq]; omega
  have e3 : u32 (c <<< 8) = c <<< 8 := by
    unfold u32; rw [Nat.shiftLeft_eq]; omega
  rw [e1, e2, e3]

/-- Packing the bytewise or of two addresses is the or of their integers. -/
theorem pack_lor (a b c d a' b' c' d' : Nat) (ha : a < 256) (hb : b < 256) (hc : c < 256)
    (hd : d < 256) (ha' : a' < 256) (hb' : b' < 256) (hc' : c' < 256) (hd' : d' < 256) :
    (a ||| a') * 2 ^ 24 + (b ||| b') * 2 ^ 16 + (c ||| c') * 2 ^ 8 + (d ||| d') =
      (a * 2 ^ 24 + b * 2 ^ 16 + c * 2 ^ 8 + d) |||
        (a' * 2 ^ 24 + b' * 2 ^ 16 + c' * 2 ^ 8 + d') := by
  have h8 : ∀ x y : Nat, x < 256 → y < 256 → x ||| y < 256 := fun x y hx hy =>
    Nat.or_lt_two_pow (n := 8) hx hy
  rw [pack_or_form _ _ _ _ (h8 a a' ha ha') (h8 b b' hb hb') (h8 c c' hc hc') (h8 d d' hd hd'),
    pack_or_form a b c d ha hb hc hd, pack_or_form a' b' c' d' ha' hb' hc' hd',
    shiftLeft_lor, shiftLeft_lor, shiftLeft_lor]
  generalize a <<< 24 = A, b <<< 16 = B, c <<< 8 = C, a' <<< 24 = A', b' <<< 16 = B',
    c' <<< 8 = C'
  apply Nat.eq_of_testBit_eq
  intro i
  simp only [Nat.testBit_or]
  cases A.testBit i <;> cases B.testBit i <;> cases C.testBit i <;> cases d.testBit i <;>
    cases A'.testBit i <;> cases B'.testBit i <;> cases C'.testBit i <;> cases d'.testBit i <;> rfl

/-- Setting the `k` low bits of a multiple of `2^k` adds `2^k - 1`. -/
theorem lor_low_bits (s k : Nat) (h : s % 2 ^ k = 0) : s ||| (2 ^ k - 1) = s + 2 ^ k - 1 := by
  have hpos : 0 < 2 ^ k := Nat.two_pow_pos _
  have hs : s = 2 ^ k * (s / 2 ^ k) := by
    have := Nat.div_add_mod s (2 ^ k)
    omega
  have hlt : 2 ^ k - 1 < 2 ^ k := by omega
  have := Nat.mul_add_lt_is_or hlt (s / 2 ^ k)
  rw [← hs] at this
  omega

set_option maxRecDepth 100000 in
theorem hostMask_facts : ∀ p : Fin 33,
    (CIDRMask p.val 32).length = 4 ∧ packList (hostMask p.val) = 2 ^ (32 - p.val) - 1 := by
  decide

/-- For any network address and mask of four bytes `getBroadcastAddress` stays in bounds and
returns the bytes `base[i] | ^mask[i]`. -/
theorem getBroadcastAddress_four (a b c d m0 m1 m2 m3 : Byte) :
    getBroadcastAddress ⟨[a, b, c, d], [m0, m1, m2, m3]⟩ =
      some [byte (a.val ||| (255 - m0.val)), byte (b.val ||| (255 - m1.val)),
        byte (c.val ||| (255 - m2.val)), byte (d.val ||| (255 - m3.val))] := rfl

theorem byte_lor_val (x m : Byte) : (byte (x.val ||| (255 - m.val))).val = x.val ||| (255 - m.val) := by
  rw [byte_val]
  apply Nat.mod_eq_of_lt
  have hx := x.isLt
  have hm : 255 - m.val < 256 := by omega
  exact Nat.or_lt_two_pow (n := 8) hx hm

/-- C15: for every IPv4 network with four-byte base `a.b.c.d` and the four-byte mask of prefix
length `p` in 0..32, `getBroadcastAddress` indexes in bounds and returns the four-byte
address whose byte `i` is `base[i] | ^mask[i]`; when the host bits of the base are zero its
integer is `ipToUint32(base) + 2^(32-p) - 1`, a 32-bit value not below `ipToUint32(base)`. -/
theorem C15_broadcast (a b c d : Byte) (p : Fin 33)
    (hhost : (a.val * 2 ^ 24 + b.val * 2 ^ 16 + c.val * 2 ^ 8 + d.val) % 2 ^ (32 - p.val) = 0) :
    ∃ m0 m1 m2 m3 x0 x1 x2 x3 : Byte,
      CIDRMask p.val 32 = [m0, m1, m2, m3] ∧
      getBroadcastAddress ⟨[a, b, c, d], CIDRMask p.val 32⟩ = some [x0, x1, x2, x3] ∧
      x0.val = a.val ||| (255 - m0.val) ∧ x1.val = b.val ||| (255 - m1.val) ∧
      x2.val = c.val ||| (255 - m2.val) ∧ x3.val = d.val ||| (255 - m3.val) ∧
      ipToUint32 [a, b, c, d] = some (a.val * 2 ^ 24 + b.val * 2 ^ 16 + c.val * 2 ^ 8 + d.val) ∧
      ipToUint32 [x0, x1, x2, x3] =
        some (a.val * 2 ^ 24 + b.val * 2 ^ 16 + c.val * 2 ^ 8 + d.val + 2 ^ (32 - p.val) - 1) ∧
      a.val * 2 ^ 24 + b.val * 2 ^ 16 + c.val * 2 ^ 8 + d.val ≤
        a.val * 2 ^ 24 + b.val * 2 ^ 16 + c.val * 2 ^ 8 + d.val + 2 ^ (32 - p.val) - 1 ∧
      a.val * 2 ^ 24 + b.val * 2 ^ 16 + c.val * 2 ^ 8 + d.val + 2 ^ (32 - p.val) - 1 < 2 ^ 32 := by
  obtain ⟨hlen, hpack⟩ := hostMask_facts p
  have ha := a.isLt; have hb := b.isLt; have hc := c.isLt; have hd := d.isLt
  match hm : CIDRMask p.val 32, hlen with
  | [m0, m1, m2, m3], _ =>
    have hm0 : 255 - m0.val < 256 := by omega
    have hm1 : 255 - m1.val < 256 := by omega
    have hm2 : 255 - m2.val < 256 := by omega
    have hm3 : 255 - m3.val < 256 := by omega
    have hinv : (255 - m0.val) * 2 ^ 24 + (255 - m1.val) * 2 ^ 16 + (255 - m2.val) * 2 ^ 8 +
        (255 - m3.val) = 2 ^ (32 - p.val) - 1 := by
      rw [← hpack]
      simp [hostMask, hm, packList]
      omega
    have hval : (byte (a.val ||| (255 - m0.val))).val * 2 ^ 24 +
        (byte (b.val ||| (255 - m1.val))).val * 2 ^ 16 +
        (byte (c.val ||| (255 - m2.val))).val * 2 ^ 8 + (byte (d.val ||| (255 - m3.val))).val =
        a.val * 2 ^ 24 + b.val * 2 ^ 16 + c.val * 2 ^ 8 + d.val + 2 ^ (32 - p.val) - 1 := by
      rw [byte_lor_val, byte_lor_val, byte_lor_val, byte_lor_val,
        pack_lor _ _ _ _ _ _ _ _ ha hb hc hd hm0 hm1 hm2 hm3, hinv, lor_low_bits _ _ hhost]
    have hpos : 0 < 2 ^ (32 - p.val) := Nat.two_pow_pos _
    have hbound : a.val * 2 ^ 24 + b.val * 2 ^ 16 + c.val * 2 ^ 8 + d.val + 2 ^ (32 - p.val) - 1
        < 2 ^ 32 := by
      rw [← hval]
      have := (byte (a.val ||| (255 - m0.val))).isLt
      have := (byte (b.val ||| (255 - m1.val))).isLt
      have := (byte (c.val ||| (255 - m2.val))).isLt
      have := (byte (d.val ||| (255 - m3.val))).isLt
      omega
    refine ⟨m0, m1, m2, m3, byte (a.val ||| (255 - m0.val)), byte (b.val ||| (255 - m1.val)),
      byte (c.val ||| (255 - m2.val)), byte (d.val ||| (255 - m3.val)), rfl,
      getBroadcastAddress_four a b c d m0 m1 m2 m3,
      byte_lor_val a m0, byte_lor_val b m1, byte_lor_val c m2, byte_lor_val d m3,
      ipToUint32_of_To4 _ a b c d (by simp [To4]), ?_, by omega, hbound⟩
    rw [ipToUint32_of_To4 _ (byte (a.val ||| (255 - m0.val))) (byte (b.val ||| (255 - m1.val)))
      (byte (c.val ||| (255 - m2.val))) (byte (d.val ||| (255 - m3.val))) (by simp [To4]), hval]

/-- C15 on the network 10.0.0.0/8, whose broadcast address 10.255.255.255 is the integer
`167772160 + 2^24 - 1`. -/
theorem C15_broadcast_witness :
    ∃ m0 m1 m2 m3 x0 x1 x2 x3 : Byte,
      CIDRMask (8 : Fin 33).val 32 = [m0, m1, m2, m3] ∧
      getBroadcastAddress ⟨[10, 0, 0, 0], CIDRMask (8 : Fin 33).val 32⟩ = some [x0, x1, x2, x3] ∧
      x0.val = (10 : Byte).val ||| (255 - m0.val) ∧ x1.val = (0 : Byte).val ||| (255 - m1.val) ∧
      x2.val = (0 : Byte).val ||| (255 - m2.val) ∧ x3.val = (0 : Byte).val ||| (255 - m3.val) ∧
      ipToUint32 [10, 0, 0, 0] = some ((10 : Byte).val * 2 ^ 24 + (0 : Byte).val * 2 ^ 16 +
        (0 : Byte).val * 2 ^ 8 + (0 : Byte).val) ∧
      ipToUint32 [x0, x1, x2, x3] =
        some ((10 : Byte).val * 2 ^ 24 + (0 : Byte).val * 2 ^ 16 + (0 : Byte).val * 2 ^ 8 +
          (0 : Byte).val + 2 ^ (32 - (8 : Fin 33).val) - 1) ∧
      (10 : Byte).val * 2 ^ 24 + (0 : Byte).val * 2 ^ 16 + (0 : Byte).val * 2 ^ 8 + (0 : Byte).val ≤
        (10 : Byte).val * 2 ^ 24 + (0 : Byte).val * 2 ^ 16 + (0 : Byte).val * 2 ^ 8 +
          (0 : Byte).val + 2 ^ (32 - (8 : Fin 33).val) - 1 ∧
      (10 : Byte).val * 2 ^ 24 + (0 : Byte).val * 2 ^ 16 + (0 : Byte).val * 2 ^ 8 + (0 : Byte).val +
        2 ^ (32 - (8 : Fin 33).val) - 1 < 2 ^ 32 :=
  C15_broadcast 10 0 0 0 8 (by decide)

/-! ## Batch sizes of the full-space strategy -/

/-- An invariant of the rounds of a loop over a list holds after the loop; if a round
panics, what it leaves satisfies `Q`. -/
theorem foldlM_inv {σ ε : Type} (P : σ → Prop) (Q : ε → Prop) (body : Nat → σ → Except ε σ)
    (hbody : ∀ x st, P st → resultHolds P Q (body x st)) :
    ∀ (l : List Nat) (st : σ), P st → resultHolds P Q (l.foldlM (fun s x => body x s) st) := by
  intro l
  induction l with
  | nil => intro st h; exact h
  | cons x xs ih =>
    intro st h
    rw [List.foldlM_cons]
    have hb := hbody x st h
    cases hx : body x st with
    | error e => rw [hx] at hb; exact hb
    | ok st1 => rw [hx] at hb; exact ih st1 hb

theorem forOctets_inv {σ ε : Type} (P : σ → Prop) (Q : ε → Prop) (n : Nat)
    (body : Nat → σ → Except ε σ)
    (hbody : ∀ x st, P st → resultHolds P Q (body x st)) (st : σ) (h : P st) :
    resultHolds P Q (forOctets n body st) :=
  foldlM_inv P Q body hbody _ st h

/-- A round of the innermost loop keeps the batch invariant, for either value of
`skipBogon` and whatever `isBogon` does. -/
theorem generateIPsBody_inv (table : List IntRange) (bs : Nat) (k : Int)
    (skipBogon : Bool) (b c d : Nat) (st : GenState) (h : BatchInv bs st) :
    resultHolds (BatchInv bs) (fun e => ∀ x ∈ e, x.length = bs)
      (generateIPsBody table bs k skipBogon b c d st) := by
  obtain ⟨h1, h2⟩ := h
  unfold generateIPsBody
  cases hq : (if skipBogon = true then isBogon table (sprintfIP k b c d) else some false) with
  | none => simp only [hq]; exact h1
  | some r =>
    cases r with
    | true => simp only [hq]; exact ⟨h1, h2⟩
    | false =>
      simp only [hq]
      split_ifs with hlen
      · refine ⟨?_, ?_⟩
        · intro x hx
          rcases List.mem_append.mp hx with hx | hx
          · exact h1 x hx
          · rw [List.mem_singleton.mp hx]
            simp only [List.length_append, List.length_singleton] at hlen ⊢
            omega
        · simp only [List.length_nil]; omega
      · exact ⟨h1, by simpa using hlen⟩

/-- The batches of `generateIPs` for a positive batch capacity `bs`: all non-empty, none
larger than `bs`, all but the last one sent of exactly `bs` entries. -/
theorem generateIPsWith_batch_sizes (table : List IntRange) (n bs : Nat) (hbs : 0 < bs) (k : Int)
    (skipBogon : Bool) :
    (∀ b ∈ (generateIPsWith table n bs k skipBogon).sent, b ≠ [] ∧ b.length ≤ bs) ∧
    (∀ b ∈ (generateIPsWith table n bs k skipBogon).sent.dropLast, b.length = bs) := by
  have h0 : BatchInv bs ⟨[], []⟩ := ⟨by simp, by simpa using hbs⟩
  have hloops := forOctets_inv (BatchInv bs) (fun e => ∀ x ∈ e, x.length = bs) n
    (fun secondOctet => forOctets n (fun thirdOctet => forOctets n (fun fourthOctet =>
      generateIPsBody table bs k skipBogon secondOctet thirdOctet fourthOctet)))
    (fun x st hst => forOctets_inv _ _ n _
      (fun y st' hst' => forOctets_inv _ _ n _
        (fun z st'' hst'' => generateIPsBody_inv table bs k skipBogon x y z st'' hst'') st' hst')
      st hst) ⟨[], []⟩ h0
  have hne : ∀ x : List Str, x.length = bs → x ≠ [] ∧ x.length ≤ bs := by
    intro x hx
    refine ⟨?_, by omega⟩
    intro h; rw [h] at hx; simp at hx; omega
  unfold generateIPsWith generateIPsLoops
  cases hr : forOctets n (fun secondOctet => forOctets n (fun thirdOctet =>
      forOctets n (fun fourthOctet =>
        generateIPsBody table bs k skipBogon secondOctet thirdOctet fourthOctet))) ⟨[], []⟩ with
  | error e =>
    rw [hr] at hloops
    simp only
    exact ⟨fun b hb => hne b (hloops b hb), fun b hb => hloops b (List.dropLast_subset _ hb)⟩
  | ok st =>
    rw [hr] at hloops
    obtain ⟨h1, h2⟩ := hloops
    simp only
    split_ifs with hpos
    · refine ⟨?_, ?_⟩
      · intro b hb
        rcases List.mem_append.mp hb with hb | hb
        · exact hne b (h1 b hb)
        · rw [List.mem_singleton.mp hb]
          refine ⟨?_, by omega⟩
          intro h; rw [h] at hpos; simp at hpos
      · intro b hb
        rw [List.dropLast_concat] at hb
        exact h1 b hb
    · exact ⟨fun b hb => hne b (h1 b hb), fun b hb => h1 b (List.dropLast_subset _ hb)⟩

/-- Without bogon skipping a shard has `256^3` entries, for any first octet. -/
theorem generateIPs_noskip_length (table : List IntRange) (k : Int) :
    (generateIPs table k false).sent.flatten.length = 256 * 256 * 256 := by
  unfold generateIPs maxOctet
  rw [(generateIPsWith_noskip table 255 batchSize k).2]
  have e1 : ∀ b : Nat, ((List.range (255 + 1)).flatMap fun (c : Nat) =>
      (List.range (255 + 1)).map fun (d : Nat) => sprintfIP k b c d) =
      (List.range (256 * 256)).map (fun (j : Nat) => sprintfIP k b ((j / 256 : Nat) : Int)
        ((j % 256 : Nat) : Int)) := by
    intro b
    exact range_flatMap_map 256 256 (fun (c d : Nat) => sprintfIP k b c d)
  simp only [e1]
  rw [show (255 + 1 : Nat) = 256 from rfl,
    range_flatMap_map 256 (256 * 256) (fun (b j : Nat) => sprintfIP k b
      ((j / 256 : Nat) : Int) ((j % 256 : Nat) : Int))]
  simp

/-- C11: for every first octet `k` and either value of `skipBogon`, every batch `generateIPs`
sends is non-empty and holds at most `batchSize = 10,000,000` entries, and every batch
before the last one sent holds exactly `batchSize` entries; with `skipBogon = false` a shard
is sent as two batches, of 10,000,000 and 6,777,216 entries. -/
theorem C11_batch_sizes (table : List IntRange) (k : Int) (skipBogon : Bool) :
    (∀ b ∈ (generateIPs table k skipBogon).sent, b ≠ [] ∧ b.length ≤ batchSize) ∧
    (∀ b ∈ (generateIPs table k skipBogon).sent.dropLast, b.length = batchSize) ∧
    batchSize = 10000000 ∧
    (generateIPs table k false).sent.map List.length = [10000000, 6777216] := by
  have hgen : ∀ s : Bool,
      (∀ b ∈ (generateIPs table k s).sent, b ≠ [] ∧ b.length ≤ batchSize) ∧
      (∀ b ∈ (generateIPs table k s).sent.dropLast, b.length = batchSize) := fun s =>
    generateIPsWith_batch_sizes table maxOctet batchSize (by decide) k s
  refine ⟨(hgen skipBogon).1, (hgen skipBogon).2, rfl, ?_⟩
  obtain ⟨h1, h2⟩ := hgen false
  have hlen := generateIPs_noskip_length table k
  rw [List.length_flatten] at hlen
  have hbs : batchSize = 10000000 := rfl
  rw [hbs] at h1 h2
  generalize (generateIPs table k false).sent = sent at h1 h2 hlen
  match sent, h1, h2, hlen with
  | [], _, _, hlen => simp at hlen
  | [b1], h1, _, hlen =>
    have := (h1 b1 (by simp)).2
    simp at hlen
    omega
  | [b1, b2], _, h2, hlen =>
    have e1 := h2 b1 (by simp)
    simp at hlen
    simp only [List.map_cons, List.map_nil, e1]
    congr 2
    · omega
  | b1 :: b2 :: b3 :: rest, h1, h2, hlen =>
    have e1 := h2 b1 (by simp)
    have e2 := h2 b2 (by simp)
    simp at hlen
    omega

/-! ## FileWriter: append semantics and failures -/

/-- The files after `writeToFileFrom` do not depend on the log so far. -/
theorem writeToFileFrom_files (io : Nat → FileIO) :
    ∀ (batches : List (List Str)) (i : Nat) (fs : FS) (log log' : List Str),
      (writeToFileFrom io i batches (fs, log)).1 = (writeToFileFrom io i batches (fs, log')).1 := by
  intro batches
  induction batches with
  | nil => intro i fs log log'; rfl
  | cons b bs ih =>
    intro i fs log log'
    rw [writeToFileFrom, writeToFileFrom]
    exact ih _ _ _ _

/-- Writing a batch with every file operation succeeding appends the batch to the file it is
routed to and leaves the content of the other files as it was. -/
theorem writeBatch_ok_content (fs : FS) (batch : List Str) (p : Str) :
    ((writeBatch fs batch .ok).1 p).getD [] =
      (fs p).getD [] ++ (if routedTo p batch then batch.flatten else []) := by
  cases batch with
  | nil => simp [writeBatch, routedTo]
  | cons first rest =>
    simp only [writeBatch, routedTo, FS.append]
    by_cases hp : batchPath first = p
    · subst hp; simp
    · have hp' : ¬ p = batchPath first := fun h => hp h.symm
      simp [hp, hp']

/-- The content of every file after the writer has processed a sequence of batches with
every file operation succeeding: the previous content followed by the batches routed to it. -/
theorem writeToFileFrom_ok_content (io : Nat → FileIO) (hio : ∀ i, io i = .ok) (p : Str) :
    ∀ (batches : List (List Str)) (i : Nat) (fs : FS) (log : List Str),
      ((writeToFileFrom io i batches (fs, log)).1 p).getD [] =
        (fs p).getD [] ++ routedText p batches := by
  intro batches
  induction batches with
  | nil => intro i fs log; simp [writeToFileFrom, routedText]
  | cons b bs ih =>
    intro i fs log
    rw [writeToFileFrom, ih, hio i, writeBatch_ok_content]
    unfold routedText
    by_cases hb : routedTo p b = true
    · simp [List.filter_cons, hb, List.append_assoc]
    · simp [List.filter_cons, hb]

/-- Splitting the lines of a text at a newline. -/
theorem linesFrom_split (s t : Str) :
    ∀ cur : Str, linesFrom (s ++ '\n' :: t) cur = linesFrom (s ++ ['\n']) cur ++ linesFrom t [] := by
  induction s with
  | nil => intro cur; simp [linesFrom]
  | cons x xs ih =>
    intro cur
    rw [List.cons_append, List.cons_append, linesFrom, linesFrom]
    by_cases hx : x = '\n'
    · rw [if_pos hx, if_pos hx, ih]; rfl
    · rw [if_neg hx, if_neg hx, ih]

/-- The lines of a text that follows a line-closed text come after the lines of that text. -/
theorem linesOf_append_closed (s t : Str) (hs : LineClosed s) :
    linesOf (s ++ t) = linesOf s ++ linesOf t := by
  rcases hs with rfl | ⟨u, rfl⟩
  · simp [linesOf, linesFrom]
  · unfold linesOf
    rw [List.append_assoc, List.singleton_append, linesFrom_split]

theorem LineClosed_append (s t : Str) (hs : LineClosed s) (ht : LineClosed t) :
    LineClosed (s ++ t) := by
  rcases ht with rfl | ⟨u, rfl⟩
  · simpa using hs
  · exact Or.inr ⟨s ++ u, by simp⟩

theorem LineClosed_flatten (l : List Str) (h : ∀ e ∈ l, LineClosed e) : LineClosed l.flatten := by
  induction l with
  | nil => exact Or.inl rfl
  | cons e es ih =>
    rw [List.flatten_cons]
    exact LineClosed_append _ _ (h e (List.mem_cons_self _ _))
      (ih (fun e' he' => h e' (List.mem_cons_of_mem _ he')))

/-- The text routed to a file is line-closed when every entry ends with a newline. -/
theorem LineClosed_routedText (p : Str) (batches : List (List Str))
    (h : ∀ b ∈ batches, ∀ e ∈ b, ∃ body, e = body ++ ['\n']) :
    LineClosed (routedText p batches) := by
  unfold routedText
  apply LineClosed_flatten
  intro x hx
  obtain ⟨b, hb, rfl⟩ := List.mem_map.mp hx
  have hb' : b ∈ batches := (List.mem_filter.mp hb).1
  exact LineClosed_flatten b (fun e he => Or.inr (h b hb' e he))

theorem routedText_append (p : Str) (xs ys : List (List Str)) :
    routedText p (xs ++ ys) = routedText p xs ++ routedText p ys := by
  simp [routedText]

/-- C12: an empty batch changes no file.  For a non-empty batch, when opening and writing
succeed, `writeToFile` changes the file computed from the first entry (`result/k.txt` when
that entry begins with the octet `k` and a dot) to its previous content followed by the
entries of the batch in order, and leaves every other file as it was.  After a sequence of
batches every file holds its previous content followed by the batches routed to it, so that
feeding the sequence twice appends that text twice; from an empty directory, with entries
that end in a newline, every line is then present exactly twice as often as after feeding
the sequence once. -/
theorem C12_append_frame (fs : FS) (batches : List (List Str))
    (hnl : ∀ b ∈ batches, ∀ e ∈ b, ∃ body, e = body ++ ['\n']) :
    (∀ io, writeBatch fs [] io = (fs, [])) ∧
    (∀ first rest,
      (writeBatch fs (first :: rest) .ok).1 (batchPath first) =
        some ((fs (batchPath first)).getD [] ++ (first :: rest).flatten) ∧
      ∀ p, p ≠ batchPath first → (writeBatch fs (first :: rest) .ok).1 p = fs p) ∧
    (∀ (k : Byte) (tail : Str), batchPath (ubtoa k.val ++ '.' :: tail) = outPath k.val) ∧
    (∀ p, ((writeToFile (fun _ => .ok) fs batches).1 p).getD [] =
      (fs p).getD [] ++ routedText p batches) ∧
    (∀ p, ((writeToFile (fun _ => .ok) fs (batches ++ batches)).1 p).getD [] =
      (fs p).getD [] ++ routedText p batches ++ routedText p batches) ∧
    (∀ p l,
      (linesOf (((writeToFile (fun _ => .ok) (fun _ => none) (batches ++ batches)).1 p).getD [])).count l
        = 2 * (linesOf (((writeToFile (fun _ => .ok) (fun _ => none) batches).1 p).getD [])).count l) := by
  have hcontent : ∀ (f : FS) (bs : List (List Str)) (p : Str),
      ((writeToFile (fun _ => .ok) f bs).1 p).getD [] = (f p).getD [] ++ routedText p bs :=
    fun f bs p => writeToFileFrom_ok_content _ (fun _ => rfl) p bs 0 f []
  refine ⟨fun io => rfl, ?_, ?_, hcontent fs batches, ?_, ?_⟩
  · intro first rest
    refine ⟨by simp [writeBatch, FS.append], ?_⟩
    intro p hp
    simp [writeBatch, FS.append, hp]
  · intro k tail
    unfold batchPath outPath
    dsimp only
    rw [splitDot_head _ _ (ubtoa_all_digits k), Atoi_ubtoa_fin k]
  · intro p
    rw [hcontent, routedText_append, List.append_assoc]
  · intro p l
    rw [hcontent, hcontent, routedText_append]
    simp only [Option.getD_none, List.nil_append]
    rw [linesOf_append_closed _ _ (LineClosed_routedText p batches hnl), List.count_append]
    omega

/-- C12 on the two batches `1.0.0.1` and `1.0.0.2`, fed once and twice to an empty directory. -/
theorem C12_append_frame_witness :
    (∀ b ∈ ([["1.0.0.1\n".toList], ["1.0.0.2\n".toList]] : List (List Str)),
      ∀ e ∈ b, ∃ body, e = body ++ ['\n']) ∧
    ((linesOf (((writeToFile (fun _ => FileIO.ok) (fun _ => none)
        ([["1.0.0.1\n".toList], ["1.0.0.2\n".toList]] ++
          [["1.0.0.1\n".toList], ["1.0.0.2\n".toList]])).1 (outPath 1)).getD [])).count
        "1.0.0.1".toList
      = 2 * (linesOf (((writeToFile (fun _ => FileIO.ok) (fun _ => none)
        [["1.0.0.1\n".toList], ["1.0.0.2\n".toList]]).1 (outPath 1)).getD [])).count
        "1.0.0.1".toList) :=
  have h : ∀ b ∈ ([["1.0.0.1\n".toList], ["1.0.0.2\n".toList]] : List (List Str)),
      ∀ e ∈ b, ∃ body, e = body ++ ['\n'] := by
    intro b hb e he
    simp only [List.mem_cons, List.mem_singleton, List.not_mem_nil, or_false] at hb
    rcases hb with rfl | rfl
    · rw [List.mem_singleton.mp he]; exact ⟨"1.0.0.1".toList, rfl⟩
    · rw [List.mem_singleton.mp he]; exact ⟨"1.0.0.2".toList, rfl⟩
  ⟨h, (C12_append_frame (fun _ => none) _ h).2.2.2.2.2 (outPath 1) "1.0.0.1".toList⟩

/-- The files after `writeToFileFrom` depend on the pattern of file operations only from the
index of the first batch on. -/
theorem writeToFileFrom_congr (io io' : Nat → FileIO) :
    ∀ (batches : List (List Str)) (i : Nat) (fs : FS) (log : List Str),
      (∀ j, i ≤ j → io j = io' j) →
      writeToFileFrom io i batches (fs, log) = writeToFileFrom io' i batches (fs, log) := by
  intro batches
  induction batches with
  | nil => intro i fs log _; rfl
  | cons b bs ih =>
    intro i fs log h
    rw [writeToFileFrom, writeToFileFrom, h i (Nat.le_refl i)]
    exact ih _ _ _ (fun j hj => h j (by omega))

/-- Shifting the pattern of file operations by one index. -/
theorem writeToFileFrom_shift (io : Nat → FileIO) :
    ∀ (batches : List (List Str)) (i : Nat) (fs : FS) (log : List Str),
      writeToFileFrom io (i + 1) batches (fs, log) =
        writeToFileFrom (fun j => io (j + 1)) i batches (fs, log) := by
  intro batches
  induction batches with
  | nil => intro i fs log; rfl
  | cons b bs ih =>
    intro i fs log
    rw [writeToFileFrom, writeToFileFrom]
    exact ih _ _ _

/-! ## The pipeline: no batch lost, none duplicated -/

theorem pendingAll_mid (l r : List Producer) (p : Producer) :
    pendingAll (l ++ p :: r) = pendingAll l ++ (p.pending ++ pendingAll r) := by
  simp [pendingAll]

/-- A step moves batches between the producers, the channel and the writer, and neither
drops nor copies one. -/
theorem inFlight_step (cap : Nat) (s t : Pipeline) (hst : Step cap s t) :
    (inFlight t).Perm (inFlight s) := by
  apply List.perm_iff_count.mpr
  intro b
  cases hst with
  | spawn l r bs hm hp _ =>
    simp only [inFlight, hp, pendingAll_mid, Producer.pending]
  | startWait hm _ => rfl
  | send l r x bs hp _ _ =>
    simp only [inFlight, hp, pendingAll_mid, Producer.pending, List.count_append,
      List.count_cons, List.count_nil]
    omega
  | finish l r hp =>
    simp only [inFlight, hp, pendingAll_mid, Producer.pending]
  | recv x bs _ hch =>
    simp only [inFlight, hch, List.count_append, List.count_cons, List.count_nil]
    omega
  | writerExit _ _ _ => rfl
  | waitReturn _ _ => rfl
  | close _ => rfl

theorem inFlight_init (work : List (List (List Str))) :
    inFlight (Pipeline.init work) = work.flatten := by
  simp only [inFlight, Pipeline.init, pendingAll, List.nil_append, List.map_map]
  congr 1
  induction work with
  | nil => rfl
  | cons w ws ih => simpa [Producer.pending] using ih

/-- In every reachable state the batches in the system are those of the producers' work. -/
theorem inFlight_reachable (cap : Nat) (work : List (List (List Str))) (s : Pipeline)
    (h : Reachable cap (Pipeline.init work) s) : (inFlight s).Perm work.flatten := by
  induction h with
  | refl => rw [inFlight_init]
  | step t u _ hstep ih => exact (inFlight_step cap t u hstep).trans ih

theorem weight_sum_mid (l r : List Producer) (p : Producer) :
    ((l ++ p :: r).map Producer.weight).sum =
      (l.map Producer.weight).sum + (r.map Producer.weight).sum + p.weight := by
  simp only [List.map_append, List.map_cons, List.sum_append, List.sum_cons]
  omega

/-- Every step lowers the measure: no interleaving goes on for ever. -/
theorem measure_step (cap : Nat) (s t : Pipeline) (hst : Step cap s t) :
    t.measure < s.measure := by
  cases hst with
  | spawn l r bs hm hp _ =>
    simp only [Pipeline.measure, hp, weight_sum_mid, Producer.weight]
    omega
  | startWait hm _ =>
    simp only [Pipeline.measure, hm, MainPc.rank]
    omega
  | send l r x bs hp _ _ =>
    simp only [Pipeline.measure, hp, weight_sum_mid, Producer.weight, List.length_append,
      List.length_cons, List.length_nil]
    omega
  | finish l r hp =>
    simp only [Pipeline.measure, hp, weight_sum_mid, Producer.weight, List.length_nil]
    omega
  | recv x bs _ hch =>
    simp only [Pipeline.measure, hch, List.length_cons]
    omega
  | writerExit hw _ _ =>
    simp only [Pipeline.measure, hw]
    simp
  | waitReturn hm _ =>
    simp only [Pipeline.measure, hm, MainPc.rank]
    omega
  | close hm =>
    simp only [Pipeline.measure, hm, MainPc.rank]
    omega

theorem AllStarted_init (work : List (List (List Str))) : AllStarted (Pipeline.init work) :=
  fun h => absurd rfl h

theorem AllStarted_step (cap : Nat) (s t : Pipeline) (h : AllStarted s) (hst : Step cap s t) :
    AllStarted t := by
  have mid : ∀ (l r : List Producer) (p q : Producer), s.producers = l ++ p :: r →
      (∀ b, q ≠ Producer.notStarted b) → s.mainPc ≠ .spawning →
      ∀ x ∈ l ++ q :: r, ∀ b, x ≠ Producer.notStarted b := by
    intro l r p q hp hq hm x hx b
    rcases List.mem_append.mp hx with hx | hx
    · exact h hm x (by rw [hp]; exact List.mem_append_left _ hx) b
    · rcases List.mem_cons.mp hx with rfl | hx
      · exact hq b
      · exact h hm x (by rw [hp]; exact List.mem_append_right _ (List.mem_cons_of_mem _ hx)) b
  cases hst with
  | spawn l r bs hm hp _ => exact fun hne => absurd hm hne
  | startWait hm hall => exact fun _ => hall
  | send l r x bs hp _ _ =>
    exact fun hne => mid l r _ (Producer.running bs) hp (fun b hb => Producer.noConfusion hb) hne
  | finish l r hp =>
    exact fun hne => mid l r _ Producer.done hp (fun b hb => Producer.noConfusion hb) hne
  | recv x bs _ _ => exact h
  | writerExit _ _ _ => exact h
  | waitReturn hm _ =>
    exact fun _ => h (by rw [hm]; exact fun hc => MainPc.noConfusion hc)
  | close hm =>
    exact fun _ => h (by rw [hm]; exact fun hc => MainPc.noConfusion hc)

theorem AllStarted_reachable (cap : Nat) (work : List (List (List Str))) (s : Pipeline)
    (h : Reachable cap (Pipeline.init work) s) : AllStarted s := by
  induction h with
  | refl => exact AllStarted_init work
  | step t u _ hstep ih => exact AllStarted_step cap t u ih hstep

/-- The first producer of a list that is not started. -/
theorem first_notStarted (ps : List Producer) (h : ∃ p ∈ ps, ∃ b, p = Producer.notStarted b) :
    ∃ l r bs, ps = l ++ Producer.notStarted bs :: r ∧
      ∀ p ∈ l, ∀ b, p ≠ Producer.notStarted b := by
  induction ps with
  | nil => obtain ⟨p, hp, _⟩ := h; simp at hp
  | cons x xs ih =>
    cases x with
    | notStarted bs => exact ⟨[], xs, bs, rfl, by simp⟩
    | running bs =>
      obtain ⟨p, hp, b, rfl⟩ := h
      rcases List.mem_cons.mp hp with hx | hx
      · exact Producer.noConfusion hx
      · obtain ⟨l, r, bs', hl, hall⟩ := ih ⟨_, hx, b, rfl⟩
        refine ⟨Producer.running bs :: l, r, bs', by rw [hl]; rfl, ?_⟩
        intro q hq c
        rcases List.mem_cons.mp hq with rfl | hq
        · exact fun hc => Producer.noConfusion hc
        · exact hall q hq c
    | done =>
      obtain ⟨p, hp, b, rfl⟩ := h
      rcases List.mem_cons.mp hp with hx | hx
      · exact Producer.noConfusion hx
      · obtain ⟨l, r, bs', hl, hall⟩ := ih ⟨_, hx, b, rfl⟩
        refine ⟨Producer.done :: l, r, bs', by rw [hl]; rfl, ?_⟩
        intro q hq c
        rcases List.mem_cons.mp hq with rfl | hq
        · exact fun hc => Producer.noConfusion hc
        · exact hall q hq c

/-- When every producer is done nothing is left to send. -/
theorem pendingAll_done (ps : List Producer) (h : ∀ p ∈ ps, p = Producer.done) :
    pendingAll ps = [] := by
  induction ps with
  | nil => rfl
  | cons x xs ih =>
    have hx := h x (List.mem_cons_self _ _)
    subst hx
    have := ih (fun p hp => h p (List.mem_cons_of_mem _ hp))
    simpa [pendingAll, Producer.pending] using this

/-- A reachable state in which no step is possible: the channel is empty and every producer
is done. -/
theorem stuck_drained (cap : Nat) (work : List (List (List Str))) (s : Pipeline)
    (h : Reachable (cap + 1) (Pipeline.init work) s) (hstuck : ∀ t, ¬ Step (cap + 1) s t) :
    s.chan = [] ∧ ∀ p ∈ s.producers, p = Producer.done := by
  obtain ⟨hc, hw, hpc, _⟩ := PipelineInv_reachable (cap + 1) work s h
  have hall := AllStarted_reachable (cap + 1) work s h
  have hchan : s.chan = [] := by
    cases hch : s.chan with
    | nil => rfl
    | cons b bs => exact absurd (Step.recv s b bs hw hch) (hstuck _)
  refine ⟨hchan, ?_⟩
  have hnot : ∀ p ∈ s.producers, ∀ b, p ≠ Producer.notStarted b := by
    rcases hpc with hm | hm
    · intro p hp b hb
      obtain ⟨l, r, bs, hl, hfirst⟩ := first_notStarted s.producers ⟨p, hp, b, hb⟩
      exact absurd (Step.spawn s l r bs hm hl hfirst) (hstuck _)
    · exact hall (by rw [hm]; exact fun hc => MainPc.noConfusion hc)
  intro p hp
  obtain ⟨l, r, hl⟩ := List.append_of_mem hp
  cases p with
  | notStarted bs => exact absurd rfl (hnot _ hp bs)
  | done => rfl
  | running bs =>
    cases bs with
    | nil => exact absurd (Step.finish s l r hl) (hstuck _)
    | cons b bs' =>
      exact absurd (Step.send s l r b bs' hl (by rw [hchan]; simp) hc) (hstuck _)

/-- C19: for every channel capacity of at least one, every work of the producers and every
interleaving of their steps with those of the writer: in every reachable state each batch is
in the system exactly as often as it was produced (received by the writer, buffered in the
channel or still to be sent), so none is lost and none is duplicated; every step lowers a
measure, so no interleaving runs for ever; and in a state where no step is possible the
writer has received every produced batch exactly as often as it was produced, and with file
operations that succeed each file holds its previous content followed by the batches routed
to it. -/
theorem C19_no_loss_no_duplicate (cap : Nat) (work : List (List (List Str))) (s : Pipeline)
    (h : Reachable (cap + 1) (Pipeline.init work) s) :
    (inFlight s).Perm work.flatten ∧
    (∀ t, Step (cap + 1) s t → t.measure < s.measure) ∧
    ((∀ t, ¬ Step (cap + 1) s t) →
      s.received.Perm work.flatten ∧ s.chan = [] ∧ pendingAll s.producers = [] ∧
      ∀ (fs : FS) (p : Str), ((writeToFile (fun _ => .ok) fs s.received).1 p).getD [] =
        (fs p).getD [] ++ routedText p s.received) := by
  have hperm : (inFlight s).Perm work.flatten := inFlight_reachable (cap + 1) work s h
  refine ⟨hperm, fun t ht => measure_step (cap + 1) s t ht, ?_⟩
  intro hstuck
  obtain ⟨hchan, hdone⟩ := stuck_drained cap work s h hstuck
  have hpend := pendingAll_done s.producers hdone
  refine ⟨?_, hchan, hpend, fun fs p => writeToFileFrom_ok_content _ (fun _ => rfl) p _ 0 fs []⟩
  have e : inFlight s = s.received := by
    simp [inFlight, hchan, hpend]
  rw [← e]
  exact hperm

/-- C19 on one producer with three batches and a channel of capacity 1 (fewer places than
batches): the state in which the producer is done and the channel is drained is reachable,
no step is possible in it, and the writer has received the three batches. -/
theorem C19_no_loss_no_duplicate_witness :
    Reachable (0 + 1) (Pipeline.init [[["1.0.0.1\n".toList], ["1.0.0.2\n".toList],
        ["1.0.0.3\n".toList]]])
      ⟨1, [], false, [Producer.done], false,
        [["1.0.0.1\n".toList], ["1.0.0.2\n".toList], ["1.0.0.3\n".toList]], .waiting⟩ ∧
    (∀ t, ¬ Step (0 + 1) ⟨1, [], false, [Producer.done], false,
        [["1.0.0.1\n".toList], ["1.0.0.2\n".toList], ["1.0.0.3\n".toList]], .waiting⟩ t) ∧
    (⟨1, [], false, [Producer.done], false,
        [["1.0.0.1\n".toList], ["1.0.0.2\n".toList], ["1.0.0.3\n".toList]],
        .waiting⟩ : Pipeline).received.Perm
      ([[["1.0.0.1\n".toList], ["1.0.0.2\n".toList], ["1.0.0.3\n".toList]]] :
        List (List (List Str))).flatten :=
  ⟨reach_all_received 0 _, fun t => stuck_all_received 1 _ t,
    ((C19_no_loss_no_duplicate 0 _ _ (reach_all_received 0 _)).2.2
      (fun t => stuck_all_received 1 _ t)).1⟩

/-! ## FileWriter: what a whole run writes and prints -/

/-- The file `p` after one round of the writer, whatever the file operations do. -/
theorem writeBatch_content (fs : FS) (batch : List Str) (r : FileIO) (p : Str) :
    ((writeBatch fs batch r).1 p).getD [] =
      (fs p).getD [] ++ (if routedTo p batch then writtenText r batch else []) := by
  cases batch with
  | nil => simp [writeBatch, routedTo]
  | cons first rest =>
    by_cases hp : batchPath first = p
    · subst hp
      cases r <;> simp [writeBatch, routedTo, FS.append, writtenText]
    · have hp' : ¬ p = batchPath first := fun h => hp h.symm
      cases r <;> simp [writeBatch, routedTo, FS.append, writtenText, hp, hp']

/-- The file `p` exists after one round if it existed before or the batch is routed to it and
its file opens. -/
theorem writeBatch_isSome (fs : FS) (batch : List Str) (r : FileIO) (p : Str) :
    ((writeBatch fs batch r).1 p).isSome = ((fs p).isSome || (routedTo p batch && opens r)) := by
  cases batch with
  | nil => simp [writeBatch, routedTo]
  | cons first rest =>
    by_cases hp : batchPath first = p
    · subst hp
      cases r <;> simp [writeBatch, routedTo, FS.append, opens]
    · have hp' : ¬ p = batchPath first := fun h => hp h.symm
      cases r <;> simp [writeBatch, routedTo, FS.append, opens, hp, hp']

/-- What one round prints. -/
theorem writeBatch_log (fs : FS) (batch : List Str) (r : FileIO) :
    (writeBatch fs batch r).2 = (failureLine r batch).toList := by
  cases batch with
  | nil => cases r <;> rfl
  | cons first rest => cases r <;> rfl

/-- What a run of the writer prints and writes, for every sequence of batches and every
pattern of file operations: every batch is processed. -/
theorem writeToFileFrom_run (io : Nat → FileIO) :
    ∀ (batches : List (List Str)) (i : Nat) (fs : FS) (log : List Str),
      (writeToFileFrom io i batches (fs, log)).2 = log ++ openFailureLog io i batches ∧
      (∀ p, ((writeToFileFrom io i batches (fs, log)).1 p).getD [] =
        (fs p).getD [] ++ writtenTo io p i batches) ∧
      (∀ p, ((writeToFileFrom io i batches (fs, log)).1 p).isSome =
        ((fs p).isSome ||
          (batches.enumFrom i).any (fun ib => routedTo p ib.2 && opens (io ib.1)))) := by
  intro batches
  induction batches with
  | nil =>
    intro i fs log
    simp [writeToFileFrom, openFailureLog, writtenTo]
  | cons b bs ih =>
    intro i fs log
    rw [writeToFileFrom]
    obtain ⟨h1, h2, h3⟩ := ih (i + 1) (writeBatch fs b (io i)).1 (log ++ (writeBatch fs b (io i)).2)
    refine ⟨?_, ?_, ?_⟩
    · rw [h1, writeBatch_log]
      cases hf : failureLine (io i) b <;>
        simp [openFailureLog, List.enumFrom_cons, List.filterMap_cons, hf]
    · intro p
      rw [h2 p, writeBatch_content]
      by_cases hr : routedTo p b = true
      · simp [writtenTo, List.enumFrom_cons, List.filter_cons, hr]
      · simp [writtenTo, List.enumFrom_cons, List.filter_cons, hr]
    · intro p
      rw [h3 p, writeBatch_isSome]
      simp [List.enumFrom_cons, Bool.or_assoc]

theorem writtenTo_append (io : Nat → FileIO) (p : Str) (i : Nat) (xs ys : List (List Str)) :
    writtenTo io p i (xs ++ ys) = writtenTo io p i xs ++ writtenTo io p (i + xs.length) ys := by
  simp [writtenTo, List.enumFrom_append]

theorem openFailureLog_append (io : Nat → FileIO) (i : Nat) (xs ys : List (List Str)) :
    openFailureLog io i (xs ++ ys) =
      openFailureLog io i xs ++ openFailureLog io (i + xs.length) ys := by
  simp [openFailureLog, List.enumFrom_append]

theorem writtenTo_cons (io : Nat → FileIO) (p : Str) (i : Nat) (b : List Str)
    (bs : List (List Str)) :
    writtenTo io p i (b :: bs) =
      (if routedTo p b then writtenText (io i) b else []) ++ writtenTo io p (i + 1) bs := by
  by_cases hr : routedTo p b = true
  · simp [writtenTo, List.enumFrom_cons, List.filter_cons, hr]
  · simp [writtenTo, List.enumFrom_cons, List.filter_cons, hr]

theorem openFailureLog_cons (io : Nat → FileIO) (i : Nat) (b : List Str) (bs : List (List Str)) :
    openFailureLog io i (b :: bs) =
      (failureLine (io i) b).toList ++ openFailureLog io (i + 1) bs := by
  cases hf : failureLine (io i) b <;>
    simp [openFailureLog, List.enumFrom_cons, List.filterMap_cons, hf]

/-- A batch whose file fails to open leaves the files as if it had not been received. -/
theorem writeToFileFrom_open_failure (io : Nat → FileIO) (b : List Str) (post : List (List Str))
    (err : Str) :
    ∀ (pre : List (List Str)) (i : Nat) (fs : FS) (log : List Str),
      io (i + pre.length) = .openFails err →
      (writeToFileFrom io i (pre ++ b :: post) (fs, log)).1 =
        (writeToFileFrom (dropEntry io (i + pre.length)) i (pre ++ post) (fs, log)).1 := by
  intro pre
  induction pre with
  | nil =>
    intro i fs log h
    simp only [List.nil_append, List.length_nil, Nat.add_zero] at h ⊢
    rw [writeToFileFrom, h]
    have hfs : (writeBatch fs b (.openFails err)).1 = fs := by
      cases b <;> rfl
    rw [hfs, writeToFileFrom_shift,
      writeToFileFrom_congr (dropEntry io i) (fun j => io (j + 1)) post i fs log
        (fun j hj => by simp [dropEntry, Nat.not_lt.mpr hj])]
    exact writeToFileFrom_files _ _ _ _ _ _
  | cons x xs ih =>
    intro i fs log h
    rw [List.cons_append, List.cons_append, writeToFileFrom, writeToFileFrom]
    have hi : dropEntry io (i + (x :: xs).length) i = io i := by
      simp [dropEntry]
    rw [hi]
    have h' : io (i + 1 + xs.length) = .openFails err := by
      rw [← h]; congr 1; simp; omega
    have e : i + (x :: xs).length = i + 1 + xs.length := by simp; omega
    rw [e]
    exact ih (i + 1) _ _ h'

/-- C14 as stated fails: when writing fails after the first 8 bytes of the batch
`1.0.0.1`, `1.0.0.2` have reached the file, nothing is logged and the entry `1.0.0.1` is in
the file `result/1.txt`; and a write that fails before any byte is written is not logged
either. -/
theorem C14_counterexample :
    (writeBatch (fun _ => none) ["1.0.0.1\n".toList, "1.0.0.2\n".toList] (.writeFails 8)).2 = [] ∧
    (writeBatch (fun _ => none) ["1.0.0.1\n".toList, "1.0.0.2\n".toList] (.writeFails 8)).1
      (outPath 1) = some "1.0.0.1\n".toList ∧
    (writeBatch (fun _ => none) ["1.0.0.1\n".toList, "1.0.0.2\n".toList] (.writeFails 0)).2 = [] := by
  decide

/-- C14, amended: for every sequence of batches `pre ++ (first :: rest) :: post` and every
pattern `io` of file failures.  The writer never aborts: what `writeToFile` prints is one
line for every non-empty batch whose file does not open, in order, and every file ends with
its previous content followed by what reached it of every batch routed to it, in order; a
file exists afterwards exactly if it existed before or a batch routed to it had its file
opened.  When opening the file of the batch `first :: rest` fails with error `err`,
`writeToFile` prints for it the line `Gagal membuka file <path>: <err>`, none of its entries
reaches a file, and the files are those of the run on the sequence without that batch.  When
writing that batch fails after `n` bytes, nothing is printed for it, and its first `n` bytes
stay in its file, followed by what the later batches write. -/
theorem C14_failures (io : Nat → FileIO) (fs : FS) (pre post : List (List Str)) (first : Str)
    (rest : List Str) :
    ((writeToFile io fs (pre ++ (first :: rest) :: post)).2 =
        openFailureLog io 0 (pre ++ (first :: rest) :: post) ∧
      (∀ p, ((writeToFile io fs (pre ++ (first :: rest) :: post)).1 p).getD [] =
        (fs p).getD [] ++ writtenTo io p 0 (pre ++ (first :: rest) :: post)) ∧
      (∀ p, ((writeToFile io fs (pre ++ (first :: rest) :: post)).1 p).isSome =
        ((fs p).isSome || ((pre ++ (first :: rest) :: post).enumFrom 0).any
          (fun ib => routedTo p ib.2 && opens (io ib.1))))) ∧
    (∀ err, io pre.length = .openFails err →
      (writeToFile io fs (pre ++ (first :: rest) :: post)).2 =
        openFailureLog io 0 pre ++ openFailureLine (batchPath first) err ::
          openFailureLog io (pre.length + 1) post ∧
      (∀ p, ((writeToFile io fs (pre ++ (first :: rest) :: post)).1 p).getD [] =
        (fs p).getD [] ++ writtenTo io p 0 pre ++ writtenTo io p (pre.length + 1) post) ∧
      (writeToFile io fs (pre ++ (first :: rest) :: post)).1 =
        (writeToFile (dropEntry io pre.length) fs (pre ++ post)).1) ∧
    (∀ n, io pre.length = .writeFails n →
      (writeToFile io fs (pre ++ (first :: rest) :: post)).2 =
        openFailureLog io 0 pre ++ openFailureLog io (pre.length + 1) post ∧
      (∀ p, ((writeToFile io fs (pre ++ (first :: rest) :: post)).1 p).getD [] =
        (fs p).getD [] ++ writtenTo io p 0 pre ++
          (if routedTo p (first :: rest) then (first :: rest).flatten.take n else []) ++
          writtenTo io p (pre.length + 1) post)) := by
  obtain ⟨hlog, hcontent, hsome⟩ :=
    writeToFileFrom_run io (pre ++ (first :: rest) :: post) 0 fs []
  have hlog' : (writeToFile io fs (pre ++ (first :: rest) :: post)).2 =
      openFailureLog io 0 (pre ++ (first :: rest) :: post) := by
    simpa [writeToFile] using hlog
  refine ⟨⟨hlog', hcontent, hsome⟩, ?_, ?_⟩
  · intro err hopen
    refine ⟨?_, ?_, ?_⟩
    · rw [hlog', openFailureLog_append, openFailureLog_cons, Nat.zero_add, hopen]
      rfl
    · intro p
      have := hcontent p
      rw [writtenTo_append, writtenTo_cons, Nat.zero_add, hopen] at this
      simpa [writeToFile, writtenText, List.append_assoc] using this
    · have := writeToFileFrom_open_failure io (first :: rest) post err pre 0 fs []
        (by simpa using hopen)
      simpa [writeToFile] using this
  · intro n hwrite
    refine ⟨?_, ?_⟩
    · rw [hlog', openFailureLog_append, openFailureLog_cons, Nat.zero_add, hwrite]
      rfl
    · intro p
      have := hcontent p
      rw [writtenTo_append, writtenTo_cons, Nat.zero_add, hwrite] at this
      simpa [writeToFile, writtenText, List.append_assoc] using this

/-- C14 (amended) on three batches written to an empty directory, the file of the second not
opening with the error `disk`: one line is printed, `result/2.txt` is not created and
`result/1.txt` holds the first and the third batch. -/
theorem C14_failures_witness :
    (fun i => if i = 1 then FileIO.openFails "disk".toList else FileIO.ok)
      [["1.0.0.1\n".toList]].length = FileIO.openFails "disk".toList ∧
    (writeToFile (fun i => if i = 1 then FileIO.openFails "disk".toList else FileIO.ok)
      (fun _ => none)
      ([["1.0.0.1\n".toList]] ++ ("2.0.0.1\n".toList :: []) :: [["1.0.0.2\n".toList]])).2 =
      openFailureLog (fun i => if i = 1 then FileIO.openFails "disk".toList else FileIO.ok) 0
          [["1.0.0.1\n".toList]] ++
        openFailureLine (batchPath "2.0.0.1\n".toList) "disk".toList ::
          openFailureLog (fun i => if i = 1 then FileIO.openFails "disk".toList else FileIO.ok)
            ([["1.0.0.1\n".toList]].length + 1) [["1.0.0.2\n".toList]] ∧
    (writeToFile (fun i => if i = 1 then FileIO.openFails "disk".toList else FileIO.ok)
      (fun _ => none)
      ([["1.0.0.1\n".toList]] ++ ("2.0.0.1\n".toList :: []) :: [["1.0.0.2\n".toList]])).2 =
      ["Gagal membuka file result/2.txt: disk\n".toList] ∧
    (writeToFile (fun i => if i = 1 then FileIO.openFails "disk".toList else FileIO.ok)
      (fun _ => none)
      ([["1.0.0.1\n".toList]] ++ ("2.0.0.1\n".toList :: []) :: [["1.0.0.2\n".toList]])).1
      (outPath 2) = none ∧
    (writeToFile (fun i => if i = 1 then FileIO.openFails "disk".toList else FileIO.ok)
      (fun _ => none)
      ([["1.0.0.1\n".toList]] ++ ("2.0.0.1\n".toList :: []) :: [["1.0.0.2\n".toList]])).1
      (outPath 1) = some "1.0.0.1\n1.0.0.2\n".toList :=
  ⟨rfl,
    ((C14_failures (fun i => if i = 1 then FileIO.openFails "disk".toList else FileIO.ok)
      (fun _ => none) [["1.0.0.1\n".toList]] [["1.0.0.2\n".toList]] "2.0.0.1\n".toList []).2.1
      "disk".toList rfl).1,
    rfl, rfl, rfl⟩

/-! ## FileWriter: routing by first octet, the whole run -/

/-- C5 as stated fails: the two batches `generateIPsInRange` sends for `[1.0.0.1, 1.0.0.2]`
are written to an empty directory; the write of the first is cut after one byte (the error
is discarded by the source), the second is written in full.  The file `result/1.txt` then
holds the single line `11.0.0.2`, which does not begin with `1.`. -/
theorem C5_counterexample :
    (∀ b ∈ ([["1.0.0.1\n".toList], ["1.0.0.2\n".toList]] : List (List Str)),
      SentByProducer [] b) ∧
    FilesRouted (fun _ => none) ∧
    (writeToFile (fun i => if i = 0 then FileIO.writeFails 1 else FileIO.ok) (fun _ => none)
      [["1.0.0.1\n".toList], ["1.0.0.2\n".toList]]).1 (outPath 1) = some "11.0.0.2\n".toList ∧
    linesOf "11.0.0.2\n".toList = ["11.0.0.2".toList] ∧
    ¬ FilesRouted (writeToFile (fun i => if i = 0 then FileIO.writeFails 1 else FileIO.ok)
      (fun _ => none) [["1.0.0.1\n".toList], ["1.0.0.2\n".toList]]).1 := by
  have hs : ∀ b ∈ ([["1.0.0.1\n".toList], ["1.0.0.2\n".toList]] : List (List Str)),
      SentByProducer [] b := fun b hb =>
    Or.inl ⟨5, [1, 0, 0, 1], [1, 0, 0, 2], by
      have e : (generateIPsInRange 5 [1, 0, 0, 1] [1, 0, 0, 2]).sent =
          [["1.0.0.1\n".toList], ["1.0.0.2\n".toList]] := by decide
      rw [e]; exact hb⟩
  have hfile : (writeToFile (fun i => if i = 0 then FileIO.writeFails 1 else FileIO.ok)
      (fun _ => none) [["1.0.0.1\n".toList], ["1.0.0.2\n".toList]]).1 (outPath 1) =
      some "11.0.0.2\n".toList := rfl
  have hlines : linesOf "11.0.0.2\n".toList = ["11.0.0.2".toList] := rfl
  refine ⟨hs, fun _ _ h => Option.noConfusion h, hfile, hlines, ?_⟩
  intro h
  have hp := h 1 "11.0.0.2\n".toList hfile "11.0.0.2".toList (by rw [hlines]; simp)
  revert hp
  decide

/-- A producer batch written alone, with every file operation succeeding, is appended to
the file of its first octet and changes no other file. -/
theorem writeToFile_single (k : Byte) (first : Str) (rest : List Str)
    (hk : ProducerBatch k (first :: rest)) (fs : FS) :
    batchPath first = outPath k.val ∧
    (writeToFile (fun _ => .ok) fs [first :: rest]).1 (outPath k.val) =
      some ((fs (outPath k.val)).getD [] ++ (first :: rest).flatten) ∧
    ∀ p, p ≠ outPath k.val → (writeToFile (fun _ => .ok) fs [first :: rest]).1 p = fs p := by
  obtain ⟨x, y, z, hx⟩ := hk first (List.mem_cons_self _ _)
  have hpath : batchPath first = outPath k.val := by rw [hx]; exact batchPath_entry k x y z
  have hw : (writeToFile (fun _ => .ok) fs [first :: rest]).1 =
      fs.append (outPath k.val) (first :: rest).flatten := by
    show fs.append (batchPath first) (first :: rest).flatten = _
    rw [hpath]
  refine ⟨hpath, ?_, ?_⟩
  · rw [hw]; simp [FS.append]
  · intro p hp
    rw [hw]; simp [FS.append, hp]

/-- C5, amended: every batch sent by one of the three producers (`generateIPsInRange`,
`generateIPsFromPrefix`, `generateIPs` for a first octet in 0..255) has entries `k.b.c.d\n`
that share one first octet `k`; `writeToFile` computes the path `result/k.txt` from its first
entry and, the file operations succeeding, appends the batch to that file and changes no
other file.  After the writer has processed any sequence of producer batches every file
holds its previous content followed by what reached it of the batches routed to it; and,
starting from files in which every line of `k.txt` begins with `k.`, when no write is cut
short (a batch whose file fails to open is dropped) every line of every file `k.txt` still
begins with `k.`. -/
theorem C5_files_routed (table : List IntRange) (io : Nat → FileIO)
    (hio : ∀ i n, io i ≠ FileIO.writeFails n) (fs : FS) (batches : List (List Str))
    (hb : ∀ b ∈ batches, SentByProducer table b) (hfs : FilesRouted fs) :
    (∀ b ∈ batches, ∃ k : Byte, ProducerBatch k b ∧
      (∀ e ∈ b, (fmtInt k.val ++ ['.']) <+: e) ∧
      (∀ first rest, b = first :: rest →
        batchPath first = outPath k.val ∧
        ∀ fs' : FS,
          (writeToFile (fun _ => .ok) fs' [b]).1 (outPath k.val) =
            some ((fs' (outPath k.val)).getD [] ++ b.flatten) ∧
          ∀ p, p ≠ outPath k.val → (writeToFile (fun _ => .ok) fs' [b]).1 p = fs' p)) ∧
    (∀ p, ((writeToFile io fs batches).1 p).getD [] =
      (fs p).getD [] ++ writtenTo io p 0 batches) ∧
    (∀ p, ((writeToFile io fs batches).1 p).isSome =
      ((fs p).isSome || (batches.enumFrom 0).any (fun ib => routedTo p ib.2 && opens (io ib.1)))) ∧
    FilesRouted (writeToFile io fs batches).1 := by
  obtain ⟨_, hcontent, hsome⟩ := writeToFileFrom_run io batches 0 fs []
  refine ⟨?_, hcontent, hsome, ?_⟩
  · intro b hbm
    obtain ⟨k, hk⟩ := SentByProducer_batch table b (hb b hbm)
    refine ⟨k, hk, ?_, ?_⟩
    · intro e he
      obtain ⟨x, y, z, rfl⟩ := hk e he
      obtain ⟨body, hbody, hpre, _⟩ := entry_line k x y z
      rw [hbody]
      exact hpre.trans (List.prefix_append _ _)
    · intro first rest hfr
      subst hfr
      obtain ⟨h1, _⟩ := writeToFile_single k first rest hk fs
      exact ⟨h1, fun fs' => (writeToFile_single k first rest hk fs').2⟩
  · exact FilesRouted_writeToFileFrom io hio batches 0 fs []
      (fun b hbm => SentByProducer_batch table b (hb b hbm)) hfs

/-- C5 (amended) on the two batches `generateIPsInRange` sends for `[1.0.0.1, 1.0.0.2]`,
written to an empty directory with every file operation succeeding: `result/1.txt` holds the
two lines. -/
theorem C5_files_routed_witness :
    (∀ b ∈ ([["1.0.0.1\n".toList], ["1.0.0.2\n".toList]] : List (List Str)),
      SentByProducer [] b) ∧
    FilesRouted (fun _ => none) ∧
    (writeToFile (fun _ => FileIO.ok) (fun _ => none)
      [["1.0.0.1\n".toList], ["1.0.0.2\n".toList]]).1 (outPath 1) =
      some "1.0.0.1\n1.0.0.2\n".toList ∧
    FilesRouted (writeToFile (fun _ => FileIO.ok) (fun _ => none)
      [["1.0.0.1\n".toList], ["1.0.0.2\n".toList]]).1 :=
  have hs : ∀ b ∈ ([["1.0.0.1\n".toList], ["1.0.0.2\n".toList]] : List (List Str)),
      SentByProducer [] b := fun b hb =>
    Or.inl ⟨5, [1, 0, 0, 1], [1, 0, 0, 2], by
      have e : (generateIPsInRange 5 [1, 0, 0, 1] [1, 0, 0, 2]).sent =
          [["1.0.0.1\n".toList], ["1.0.0.2\n".toList]] := by decide
      rw [e]; exact hb⟩
  have hf : FilesRouted (fun _ => none) := fun _ _ h => Option.noConfusion h
  ⟨hs, hf, rfl,
    (C5_files_routed [] (fun _ => FileIO.ok) (fun _ _ h => FileIO.noConfusion h)
      (fun _ => none) _ hs hf).2.2.2⟩

end AutoIPGen
